import Mathlib

/-!
# Verification of the mango-db query/cursor pipeline

Shallow embedding of the query-evaluation core of the mango-db document
store (the version consisting of `cursor.js` and its `methods.js`, i.e.
the files `src/unnamed/part_003` (Cursor class) and `src/unnamed/part_004`
(LOGICS, LOGICGATES, flat, unflatten, logic, match, find, project)).

JavaScript values are modelled by the inductive type `Val`; records and
queries are JS objects, i.e. ordered association lists of string keys.
JS exceptions are modelled with `Except Unit`.  JS numbers are modelled
by `Int` (the development only exercises integer-valued records and
operands; no claim depends on float-specific behaviour).
-/

set_option maxHeartbeats 1000000

namespace MangoDB

/-- A JavaScript value, as stored in records and queries.
`obj` keeps field insertion order, as JS objects do.  `undefined` is
JavaScript's `undefined` (the result of reading an absent property). -/
inductive Val where
  | str (s : String)
  | num (n : Int)
  | bool (b : Bool)
  | null
  | undefined
  | obj (fields : List (String × Val))
  | arr (elems : List Val)

abbrev Fields := List (String × Val)

/-- JS truthiness (`!!v`): `""`, `0`, `false`, `null`, `undefined` are
falsy; every object and array is truthy. -/
def jsTruthy : Val → Bool
  | .str s => s ≠ ""
  | .num n => n ≠ 0
  | .bool b => b
  | .null => false
  | .undefined => false
  | .obj _ => true
  | .arr _ => true

/-- JS strict equality `===`.  Primitives compare by value; objects and
arrays compare by reference, and throughout this development the two
operands always come from distinct literals (query vs. freshly flattened
record copy), so object/array comparisons are `false`. -/
def jsEq : Val → Val → Bool
  | .str a, .str b => a = b
  | .num a, .num b => a = b
  | .bool a, .bool b => a = b
  | .null, .null => true
  | .undefined, .undefined => true
  | _, _ => false

/-- `getType` from methods.js: `typeof`, refined for objects via
`Object.prototype.toString`. -/
def getType : Val → String
  | .str _ => "string"
  | .num _ => "number"
  | .bool _ => "boolean"
  | .null => "null"
  | .undefined => "undefined"
  | .obj _ => "Object"
  | .arr _ => "Array"

/-- First-binding lookup in an ordered JS object; absent keys read as
`undefined`. -/
def lookupD : Fields → String → Val
  | [], _ => .undefined
  | (k', v') :: rest, k => if k' = k then v' else lookupD rest k

/-- JS property assignment `o[k] = v`: overwrites in place if the key is
present (keeping its position), otherwise appends. -/
def setKey : Fields → String → Val → Fields
  | [], k, v => [(k, v)]
  | (k', v') :: rest, k, v =>
      if k' = k then (k', v) :: rest else (k', v') :: setKey rest k v

/-- JS property read `v[k]` for the value shapes this development
descends into.  Reading a property of a primitive yields `undefined`
(property reads on primitives do not throw); array reads parse the key
as an index. -/
def getProp : Val → String → Val
  | .obj fs, k => lookupD fs k
  | .arr es, k =>
      match k.toNat? with
      | some i => es.getD i .undefined
      | none => .undefined
  | _, _ => .undefined

/-- JS property write `v[k] = x`.  Writing on a primitive, `null` or
`undefined` throws a `TypeError` in strict mode (all mango-db files are
ES modules).  Writing a non-index key on an array stores it on the array
object; our array model cannot represent such properties, so it is kept
unchanged (this case is unreachable in every theorem below). -/
def setPropE : Val → String → Val → Except Unit Val
  | .obj fs, k, x => .ok (.obj (setKey fs k x))
  | .arr es, k, x =>
      match k.toNat? with
      | some i =>
          .ok (.arr ((es ++ List.replicate (i + 1 - es.length) Val.undefined).set i x))
      | none => .ok (.arr es)
  | _, _, _ => .error ()

mutual

/-- JS `String(v)` / `ToString` coercion for the representable values. -/
def jsToString : Val → String
  | .str s => s
  | .num n => toString n
  | .bool b => if b then "true" else "false"
  | .null => "null"
  | .undefined => "undefined"
  | .obj _ => "[object Object]"
  | .arr es => jsToStringList es
termination_by v => (sizeOf v, 0)

/-- `Array.prototype.toString`: elements joined with ",", with `null`
and `undefined` elements rendered as the empty string. -/
def jsToStringList : List Val → String
  | [] => ""
  | [e] => jsToStringElem e
  | e :: rest => jsToStringElem e ++ "," ++ jsToStringList rest
termination_by es => (sizeOf es, 2)

def jsToStringElem : Val → String
  | .null => ""
  | .undefined => ""
  | v => jsToString v
termination_by v => (sizeOf v, 1)

end

/-- `needle` occurs as a contiguous run inside `hay`. -/
def listInfix : List Char → List Char → Bool
  | needle, [] => needle.isEmpty
  | needle, c :: rest => needle.isPrefixOf (c :: rest) || listInfix needle rest

/-- `haystack.includes(needle)` on strings. -/
def strIncludes (s sub : String) : Bool :=
  listInfix sub.data s.data

def allDigits (cs : List Char) : Bool := cs.all (·.isDigit)

/-- Decimal mantissa of a JS numeric string literal:
`digits`, `digits.digits?` or `.digits`. -/
def jsMantissaOk (cs : List Char) : Bool :=
  let intPart := cs.takeWhile (·.isDigit)
  match cs.dropWhile (·.isDigit) with
  | [] => !intPart.isEmpty
  | '.' :: frac => allDigits frac && (!intPart.isEmpty || !frac.isEmpty)
  | _ => false

/-- Split a char list at the first `e`/`E` exponent marker. -/
def jsSplitExp : List Char → List Char × Option (List Char)
  | [] => ([], none)
  | c :: cs =>
      if c = 'e' ∨ c = 'E' then ([], some cs)
      else
        let (m, ex) := jsSplitExp cs
        (c :: m, ex)

def jsStripSign : List Char → List Char
  | c :: cs => if c = '+' ∨ c = '-' then cs else c :: cs
  | [] => []

/-- Whitespace trimming at the character level (JS `ToNumber` skips
leading/trailing whitespace). -/
def listTrim (cs : List Char) : List Char :=
  ((cs.dropWhile (·.isWhitespace)).reverse.dropWhile (·.isWhitespace)).reverse

/-- Decidable model of JavaScript's `!isNaN(Number(s))`: does `s` parse
as a JS number?  Covers the empty/whitespace string (`Number("") == 0`),
signed decimal literals with optional fraction and exponent, the
`Infinity` forms, and `0x`/`0o`/`0b` integer literals. -/
def jsNumericString (s : String) : Bool :=
  let t := listTrim s.data
  if t.isEmpty then true
  else if t = "Infinity".data ∨ t = "+Infinity".data ∨ t = "-Infinity".data
    then true
  else
    match t with
    | '0' :: 'x' :: rest => !rest.isEmpty && rest.all (fun c => c.isDigit || ('a' ≤ c ∧ c ≤ 'f') || ('A' ≤ c ∧ c ≤ 'F'))
    | '0' :: 'X' :: rest => !rest.isEmpty && rest.all (fun c => c.isDigit || ('a' ≤ c ∧ c ≤ 'f') || ('A' ≤ c ∧ c ≤ 'F'))
    | '0' :: 'o' :: rest => !rest.isEmpty && rest.all (fun c => '0' ≤ c ∧ c ≤ '7')
    | '0' :: 'O' :: rest => !rest.isEmpty && rest.all (fun c => '0' ≤ c ∧ c ≤ '7')
    | '0' :: 'b' :: rest => !rest.isEmpty && rest.all (fun c => c = '0' ∨ c = '1')
    | '0' :: 'B' :: rest => !rest.isEmpty && rest.all (fun c => c = '0' ∨ c = '1')
    | cs =>
        let body := jsStripSign cs
        let (m, ex) := jsSplitExp body
        jsMantissaOk m &&
          (match ex with
           | none => true
           | some x =>
               let xs := jsStripSign x
               !xs.isEmpty && allDigits xs)

/-- `cs.split('.')` at the character level: the groups between dots. -/
def splitDotL : List Char → List (List Char)
  | [] => [[]]
  | c :: cs =>
      if c = '.' then [] :: splitDotL cs
      else
        match splitDotL cs with
        | g :: gs => (c :: g) :: gs
        | [] => [[c]]

/-- JS `path.split(".")`. -/
def splitDot (s : String) : List String :=
  (splitDotL s.data).map (fun l => String.mk l)

/-! ## Flattener (`flat` from part_004) -/

/-- The mutable variables of part_004's `flat` that are declared in
`flat`'s scope and *shared by every recursive call* of `recurseFlat`:
the `result` map and the loop variables `isEmpty`, `i` and `l`.  (`p`
is only a `for..in` binder.)  Their initial values are never read: each
branch assigns `isEmpty` / `l` / `i` before reading them. -/
structure FlatSt where
  result : Fields
  isEmpty : Bool
  ix : Nat
  len : Nat

mutual

/-- An upper bound on the length of any chain of `recurseFlat` /
`recurseFlatFields` / `recurseFlatArr` calls starting from a value:
one step to enter a node, one step per field of a record, and one step
per array-loop iteration, of which at most `length + 1` ever run. -/
def flatFuel : Val → Nat
  | .obj fields => flatFuelFields fields + 1
  | .arr es => flatFuelArr es + es.length + 2
  | _ => 1

def flatFuelFields : List (String × Val) → Nat
  | [] => 0
  | (_, v) :: rest => max (flatFuel v) (flatFuelFields rest) + 1

def flatFuelArr : List Val → Nat
  | [] => 1
  | e :: rest => max (flatFuel e) (flatFuelArr rest) + 1

end

mutual

/-- `recurseFlat` from part_004's `flat`, threading the shared state.
Primitives (including `null`/`undefined`, which fail
`Object(cur) === cur`) are terminals.  A plain object sets the shared
`isEmpty`, clears it before each field, and afterwards emits a terminal
`{}` at a non-empty path if it is still set — since the variable is
shared, a nested empty record processed for the *last* field leaves it
set for its ancestors too.  An array assigns the shared `l` and runs
`for (i = 0; i < l; i++)` over the shared `i`, then emits a terminal
`[]` if the (possibly clobbered) `l` is `0`.

The recursion is not structural (the shared `i` may address any
element), so it is paced by a fuel that decreases at every call; `flat`
passes `flatFuel item`, which by construction bounds the length of any
call chain, so the fuel never runs out. -/
def recurseFlat : Nat → Val → String → FlatSt → FlatSt
  | 0, _, _, st => st
  | fuel + 1, .obj fields, prop, st =>
      let st := recurseFlatFields fuel fields prop { st with isEmpty := true }
      if st.isEmpty && prop ≠ "" then
        { st with result := setKey st.result prop (.obj []) }
      else st
  | fuel + 1, .arr es, prop, st =>
      let st := recurseFlatArr fuel es prop (es.length + 1)
        { st with len := es.length, ix := 0 }
      if st.len = 0 then
        { st with result := setKey st.result prop (.arr []) }
      else st
  | _ + 1, v, prop, st => { st with result := setKey st.result prop v }

/-- The `for (p in cur)` loop of the object branch: clear the shared
`isEmpty`, then recurse into the field value. -/
def recurseFlatFields : Nat → List (String × Val) → String → FlatSt → FlatSt
  | _, [], _, st => st
  | 0, _, _, st => st
  | fuel + 1, (k, v) :: rest, prop, st =>
      recurseFlatFields fuel rest prop
        (recurseFlat fuel v (if prop = "" then k else prop ++ "." ++ k)
          { st with isEmpty := false })

/-- The `for (i = 0; i < l; i++)` loop of the array branch, over the
shared counters (which the body may change — a nested array resets and
clobbers them, which is how elements get skipped).  `iter` caps the
iterations at `length + 1`, which is never exceeded: a body that leaves
`i`/`l` untouched advances `i` by one, and any body that touches them
leaves `i ≥ l` (an array frame always exits its loop with `i ≥ l`, and
`i`/`l` are only ever assigned inside array frames), so the next check
ends the loop; when the cap is reached the loop ends exactly as that
failed check would have ended it. -/
def recurseFlatArr : Nat → List Val → String → Nat → FlatSt → FlatSt
  | _, _, _, 0, st => st
  | 0, _, _, _, st => st
  | fuel + 1, es, prop, iter + 1, st =>
      if st.ix < st.len then
        let st' := recurseFlat fuel (es.getD st.ix .undefined)
          (prop ++ "[" ++ toString st.ix ++ "]") st
        recurseFlatArr fuel es prop iter { st' with ix := st'.ix + 1 }
      else st

end

/-- `flat(item)` from part_004: the flattened dotted-path view.  The
initial `isEmpty`/`i`/`l` values are arbitrary (never read before being
assigned; `false, 0, 0` here). -/
def flat (item : Val) : Fields :=
  (recurseFlat (flatFuel item) item "" ⟨[], false, 0, 0⟩).result

/-! ## Unflattener (`unflatten` from part_004) -/

/-- One step of part_004's `unflatten` reduce:
`r[e] || (r[e] = isNaN(Number(keys[j+1])) ? (last ? item[key] : {}) : [])`,
followed by descending into `r[e]`.  If the existing value at a segment
is truthy it is kept and descended into; otherwise the new node is an
array when the *next* segment parses as a JS number, the leaf value at
the last segment, and `{}` in between.  Assigning a property on a
primitive throws in strict mode (`setPropE`). -/
def unflatInsert : Val → List String → Val → Except Unit Val
  | node, [], _ => .ok node
  | node, [e], leaf =>
      if jsTruthy (getProp node e) then .ok node
      else setPropE node e leaf
  | node, e :: e' :: rest, leaf => do
      let cur := getProp node e
      if jsTruthy cur then do
        let sub ← unflatInsert cur (e' :: rest) leaf
        setPropE node e sub
      else do
        let init : Val := if jsNumericString e' then .arr [] else .obj []
        let sub ← unflatInsert init (e' :: rest) leaf
        setPropE node e sub

/-- `unflatten(item)` from part_004: rebuilds a nested record from a
flat map by splitting each key on "." and inserting along the
segments. -/
def unflatten (item : Fields) : Except Unit Val :=
  item.foldlM (fun acc (k, v) => unflatInsert acc (splitDot k) v) (.obj [])

/-! ## Predicate library (`LOGICS` from part_004) -/

/-- The string-to-length conversion the ordering predicates apply to
each side before comparing:
`val = typeof val === "string" ? val.length : val`. -/
def lenNum : Val → Val
  | .str s => .num s.length
  | v => v

/-- The value of an all-digits run. -/
def digitsToNat (cs : List Char) : Nat :=
  cs.foldl (fun a c => a * 10 + (c.toNat - '0'.toNat)) 0

/-- `Number(s)` for the strings an array coerces through, in the
integer value model: a trimmed-empty string is `0` and an optionally
signed digit run is its value.  Anything else — fractional or exponent
forms, hex, `Infinity`, or a joined list with `","` in it — is mapped
to `NaN` (`none`); non-integral values are outside the `Int` model. -/
def jsStrToInt (s : String) : Option Int :=
  match listTrim s.data with
  | [] => some 0
  | '-' :: body =>
      if body ≠ [] && allDigits body then some (-(digitsToNat body : Int))
      else none
  | '+' :: body =>
      if body ≠ [] && allDigits body then some ((digitsToNat body : Int))
      else none
  | body =>
      if allDigits body then some ((digitsToNat body : Int)) else none

/-- JS `ToNumber` for the comparison operators, after strings have been
replaced by their lengths (`none` models `NaN`, making every comparison
false).  Objects coerce through `"[object Object]"` to `NaN`; an array
coerces through its joined string form: `[]` through `""` to `0`, a
singleton through `String(x)` (so `[7]`, `["7"]`, `[null]` give `7`,
`7`, `0`), and a longer array's join contains `","`, giving `NaN`.  The
`.str` case is unreachable: the only caller converts strings to lengths
first. -/
def jsToNumCmp : Val → Option Int
  | .num n => some n
  | .bool b => some (if b then 1 else 0)
  | .null => some 0
  | .undefined => none
  | .str _ => none
  | .obj _ => none
  | .arr es => jsStrToInt (jsToStringList es)

def jsNumLt (a b : Val) : Bool :=
  match jsToNumCmp a, jsToNumCmp b with
  | some x, some y => x < y
  | _, _ => false

def jsNumLe (a b : Val) : Bool :=
  match jsToNumCmp a, jsToNumCmp b with
  | some x, some y => x ≤ y
  | _, _ => false

/-- The `LOGICS` table from part_004: named predicates
`(operand, fieldValue) -> boolean`, with JS exceptions as `.error`.
`$regexp` requires a compiled `RegExp` operand, which is not a
representable record value; `regexp.test` on any representable operand
throws.  `$includes`/`$in` throw when the receiver has no
`includes`/`indexOf` method. -/
def LOGICS : String → Option (Val → Val → Except Unit Bool)
  | "$regexp" => some fun _ _ => .error ()
  | "$includes" => some fun op v =>
      match v with
      | .str s => .ok (strIncludes s (jsToString op))
      | .arr es => .ok (es.any (fun e => jsEq e op))
      | _ => .error ()
  | "$eq" => some fun op v => .ok (jsEq op v)
  | "$ne" => some fun op v => .ok (!jsEq op v)
  | "$lt" => some fun op v => .ok (jsNumLt (lenNum v) (lenNum op))
  | "$lte" => some fun op v => .ok (jsNumLe (lenNum v) (lenNum op))
  | "$gt" => some fun op v => .ok (jsNumLt (lenNum op) (lenNum v))
  | "$gte" => some fun op v => .ok (jsNumLe (lenNum op) (lenNum v))
  | "$in" => some fun op v =>
      match op with
      | .arr es => .ok (es.any (fun e => jsEq e v))
      | .str s => .ok (strIncludes s (jsToString v))
      | _ => .error ()
  | "$nin" => some fun op v =>
      match op with
      | .arr es => .ok (!es.any (fun e => jsEq e v))
      | .str s => .ok (!strIncludes s (jsToString v))
      | _ => .error ()
  | "$exists" => some fun op v =>
      .ok (if jsEq op (.bool true) then jsTruthy v else !jsTruthy v)
  | "$type" => some fun op v => .ok (jsEq op (.str (getType v)))
  | _ => none

/-- `Object.keys(v)`: throws on `null`/`undefined`; indices for arrays
and strings; no own enumerable properties on numbers and booleans. -/
def objectKeysE : Val → Except Unit (List String)
  | .null => .error ()
  | .undefined => .error ()
  | .obj fs => .ok (fs.map Prod.fst)
  | .arr es => .ok ((List.range es.length).map toString)
  | .str s => .ok ((List.range s.length).map toString)
  | _ => .ok []

/-! ## `logic` from part_004 -/

/-- The loop body of `logic`: for each key `name` of the constraint
object, `if (!item[key] || !$logic || !$logic(query[key][name],
item[key])) return false`.  `iv` is `item[key]` (re-read unchanged each
iteration in the source). -/
def logicLoop (qv iv : Val) : List String → Except Unit Bool
  | [] => .ok true
  | name :: rest =>
      if !jsTruthy iv then .ok false
      else
        match LOGICS name with
        | none => .ok false
        | some p => do
            let c ← p (getProp qv name) iv
            if c then logicLoop qv iv rest else .ok false

/-- `logic(query, item, key)` from part_004.  `Object.keys(query[key])`
throws when the constraint value is `null` or `undefined`. -/
def logicE (query : Val) (item : Fields) (key : String) : Except Unit Bool := do
  let qv := getProp query key
  let names ← objectKeysE qv
  logicLoop qv (lookupD item key) names

/-! ## Boolean combinators (`LOGICGATES` from part_004) -/

/-- `keys.every(key => logic(query, item, key))` for one sub-query. -/
def everyKeyLogicE (sub : Val) (copy : Fields) : List String → Except Unit Bool
  | [] => .ok true
  | k :: ks => do
      let b ← logicE sub copy k
      if b then everyKeyLogicE sub copy ks else .ok false

/-- `queryArr.some(query => ...)` for `$or`. -/
def someSubE (copy : Fields) : List Val → Except Unit Bool
  | [] => .ok false
  | sub :: rest => do
      let ks ← objectKeysE sub
      let b ← everyKeyLogicE sub copy ks
      if b then .ok true else someSubE copy rest

/-- `queryArr.every(query => ...)` for `$and` and `$intern`. -/
def everySubE (copy : Fields) : List Val → Except Unit Bool
  | [] => .ok true
  | sub :: rest => do
      let ks ← objectKeysE sub
      let b ← everyKeyLogicE sub copy ks
      if b then everySubE copy rest else .ok false

inductive Gate where
  | or
  | and
  | intern

/-- The `LOGICGATES` table from part_004 (`$or`, `$and`, `$intern`). -/
def LOGICGATES : String → Option Gate
  | "$or" => some .or
  | "$and" => some .and
  | "$intern" => some .intern
  | _ => none

/-- Applying a gate to the value stored under its key: `.some`/`.every`
exist only on arrays — calling them on any other object throws. -/
def applyGateE (g : Gate) (qv : Val) (copy : Fields) : Except Unit Bool :=
  match qv with
  | .arr subs =>
      match g with
      | .or => someSubE copy subs
      | .and => everySubE copy subs
      | .intern => everySubE copy subs
  | _ => .error ()

/-! ## Matcher (`match` from part_004) -/

/-- `typeof v === "object"` (true for objects, arrays and `null`). -/
def jsTypeofIsObject : Val → Bool
  | .obj _ => true
  | .arr _ => true
  | .null => true
  | _ => false

/-- The per-key body of `match`: literal strict equality against the
flattened copy, then the predicate object via `logic`, then the key as
a combinator name; anything else is `false`. -/
def matchKeyE (query : Val) (copy : Fields) (key : String) : Except Unit Bool :=
  let qv := getProp query key
  if jsEq qv (lookupD copy key) then .ok true
  else if jsTypeofIsObject qv then do
    let b ← logicE query copy key
    if b then .ok true
    else
      match LOGICGATES key with
      | some g => applyGateE g qv copy
      | none => .ok false
  else .ok false

/-- `keys.every(...)` over the query keys. -/
def matchKeysE (query : Val) (copy : Fields) : List String → Except Unit Bool
  | [] => .ok true
  | k :: ks => do
      let b ← matchKeyE query copy k
      if b then matchKeysE query copy ks else .ok false

/-- `match(query, item, keys)` from part_004: flatten the record once,
then check every query key. -/
def matchE (query item : Val) (keys : List String) : Except Unit Bool :=
  matchKeysE query (flat item) keys

/-- `match` with the keys computed the way `find` computes them
(`Object.keys(query)`). -/
def matchQ (query item : Val) : Except Unit Bool := do
  let keys ← objectKeysE query
  matchE query item keys

/-! ## Scanner (`find` from part_003/part_004) -/

structure CursorOptions where
  skip : Int
  /-- `none` models the `Infinity` default. -/
  limit : Option Nat
  reverse : Bool

/-- The `while (items[i] && results.length !== $limit)` loop of `find`.
`skip`/`skipped` mirror the source counters: a match is pushed when
`$skip <= skipped` and otherwise only bumps `skipped`; `lim` holds the
number of matches still wanted (`none` = Infinity).  Iteration stops at
the first falsy element (an out-of-range index reads `undefined`). -/
def findLoop (query : Val) (keys : List String) :
    List Val → Nat → Nat → Option Nat → Except Unit (List Val)
  | [], _, _, _ => .ok []
  | it :: rest, skip, skipped, lim =>
      if !jsTruthy it then .ok []
      else if lim = some 0 then .ok []
      else do
        let m ← matchE query it keys
        if m then
          if skip ≤ skipped then do
            let tail ← findLoop query keys rest skip skipped (lim.map (· - 1))
            .ok (it :: tail)
          else findLoop query keys rest skip (skipped + 1) lim
        else findLoop query keys rest skip skipped lim

/-- `find(query, items, options)` from part_003 lines 393–414 (the body
is identical in part_004 lines 206–227; part_003 merely fills in the
defaults `{$skip: 0, $limit: Infinity, $reverse: false}` for omitted
options, which the explicit `CursorOptions` record makes always
present).  Computes `keys = Object.keys(query)`, returns `[]` for
`$limit <= 0`, clamps negative `$skip` to zero, and walks the items
forward or in reverse. -/
def find (query : Val) (items : List Val) (options : CursorOptions) :
    Except Unit (List Val) := do
  let keys ← objectKeysE query
  if options.limit = some 0 then .ok []
  else
    let skip : Nat := (if options.skip < 0 then 0 else options.skip).toNat
    let traversal := if options.reverse then items.reverse else items
    findLoop query keys traversal skip 0 options.limit

/-! ## Projector (`project` from part_004) -/

/-- JS object spread `{...item}`: a shallow copy of the own enumerable
fields (spreading a primitive yields `{}`). -/
def jsSpread : Val → Fields
  | .obj fs => fs
  | _ => []

/-- Property read `base[k]` where `base` may be `null`/`undefined`
(which throws). -/
def jsGetPropE : Val → String → Except Unit Val
  | .null, _ => .error ()
  | .undefined, _ => .error ()
  | v, k => .ok (getProp v k)

/-- The classification pass of `project`: walks the projection keys
building the `hide`/`show` lists and the alias map, in key order.  Note
the source reads `projection[key]["$alias"]` for every key, which
throws when a projection value is `null` or `undefined`. -/
def projCfg (projection : Val) :
    List String → Except Unit (List String × List String × List (String × Val))
  | [] => .ok ([], [], [])
  | k :: ks => do
      let pv := getProp projection k
      let aliasV ← jsGetPropE pv "$alias"
      let (h, s, a) ← projCfg projection ks
      let hHere := (if jsEq pv (.bool false) then [k] else []) ++
        (if jsTruthy aliasV then [k] else [])
      let sHere := if jsEq pv (.bool true) then [k] else []
      let aHere := if jsTruthy aliasV then [(k, aliasV)] else []
      .ok (hHere ++ h, sHere ++ s, aHere ++ a)

/-- The per-item mutation pass of `project`: for each projection key,
apply the alias copy, then the hide / show overwrite (the latter two
guarded by the truthiness of `newItem[key]` — the *unflattened* copy). -/
def projectKeysPass (copy : Fields) (hide show' : List String)
    (aliases : List (String × Val)) : List String → Fields → Fields
  | [], fs => fs
  | k :: ks, fs =>
      let fs :=
        match aliases.find? (fun p => p.1 = k) with
        | some (_, av) => setKey fs (jsToString av) (lookupD copy k)
        | none => fs
      let fs :=
        if hide.contains k && jsTruthy (lookupD fs k) then setKey fs k .undefined
        else if show'.contains k && jsTruthy (lookupD fs k) then
          setKey fs k (lookupD copy k)
        else fs
      projectKeysPass copy hide show' aliases ks fs

/-- `project(items, projection)` from part_004 lines 233–268. -/
def project (items : List Val) (projection : Val) : Except Unit (List Val) := do
  let projectionKeys ← objectKeysE projection
  let unflat := projectionKeys.any (fun k => k.data.contains '.')
  let (hide, show', aliases) ← projCfg projection projectionKeys
  items.mapM (fun item => do
    let newItem := jsSpread item
    let copy := flat (.obj newItem)
    let newItem := projectKeysPass copy hide show' aliases projectionKeys newItem
    if unflat then unflatten newItem else .ok (.obj newItem))

/-! ## Cursor (part_003, the class importing part_004's methods) -/

/- The private state of a part_003 `Cursor` (query, backing items,
`#cursorOptions`, `#joins`, `#projection`, `#results`,
`#joinedResults`), mutually defined with the list of its join specs
`{cursor, where: [localField, foreignField], as}`. -/
mutual

inductive Cursor where
  | mk (query : Val) (items : List Val) (options : CursorOptions)
       (joins : JoinList) (projection : Val)
       (results : List Val) (joinedResults : List Val)

inductive JoinList where
  | nil
  | cons (cursor : Cursor) (whereLocal whereForeign aliasKey : String)
         (rest : JoinList)

end

namespace Cursor

def query : Cursor → Val | .mk q _ _ _ _ _ _ => q
def items : Cursor → List Val | .mk _ i _ _ _ _ _ => i
def options : Cursor → CursorOptions | .mk _ _ o _ _ _ _ => o
def joins : Cursor → JoinList | .mk _ _ _ j _ _ _ => j
def projection : Cursor → Val | .mk _ _ _ _ p _ _ => p
def results : Cursor → List Val | .mk _ _ _ _ _ r _ => r
def joinedResults : Cursor → List Val | .mk _ _ _ _ _ _ jr => jr

end Cursor

def JoinList.length : JoinList → Nat
  | .nil => 0
  | .cons _ _ _ _ rest => rest.length + 1

/- Structural weight ignoring the query field, the termination measure
for `exec` (`mixQuery` changes only the query). -/
mutual

def cursorWeight : Cursor → Nat
  | .mk _ _ _ joins _ _ _ => joinsWeight joins + 1

def joinsWeight : JoinList → Nat
  | .nil => 0
  | .cons c _ _ _ rest => cursorWeight c + joinsWeight rest + 1

end

/-- `{...a, ...b}` on two objects: keys of `b` overwrite in place or
append. -/
def mergeFields (a b : Fields) : Fields :=
  b.foldl (fun acc kv => setKey acc kv.1 kv.2) a

/-- `mixQuery(query)`: `this.#query = { ...this.#query, ...query }`. -/
def mixQuery : Cursor → Val → Cursor
  | .mk q i o j p r jr, q' =>
      .mk (.obj (mergeFields (jsSpread q) (jsSpread q'))) i o j p r jr

@[simp] theorem cursorWeight_mixQuery (c : Cursor) (q : Val) :
    cursorWeight (mixQuery c q) = cursorWeight c := by
  cases c
  rfl

/-- The `results` getter: joined results if any, else a copy of the
plain results; projected when the projection object has keys. -/
def cursorResults (c : Cursor) : Except Unit (List Val) := do
  let tmp := if c.joinedResults.length > 0 then c.joinedResults else c.results
  let pkeys ← objectKeysE c.projection
  if pkeys.length > 0 then project tmp c.projection else .ok tmp

/-- A resolved join of phase 1 of `createJoin`: the (mutated, executed)
foreign cursor, the `where` pair, the alias, and the foreign records. -/
abbrev ResolvedJoin := Cursor × String × String × String × List Val

def joinListOfResolved : List ResolvedJoin → JoinList
  | [] => .nil
  | (c, wl, wf, a, _) :: rest => .cons c wl wf a (joinListOfResolved rest)

/-- The construction of one joined record in `createJoin`:
`join = { ...item }` and then, for each join `j` with resolved foreign
array `res[i]`, `join[j.as] = res[i].find(_i => join[j.where[0]] ===
_i[j.where[1]])` (with `undefined` stored when nothing matches). -/
def buildJoined (jr : List ResolvedJoin) (item : Val) : Val :=
  .obj (jr.foldl
    (fun jfs x =>
      let (_, wl, wf, as_, arr) := x
      setKey jfs as_
        (match arr.find? (fun fi => jsEq (lookupD jfs wl) (getProp fi wf)) with
         | some f => f
         | none => .undefined))
    (jsSpread item))

mutual

/-- `exec()`: run `find`, then `createJoin` when joins are declared. -/
def exec (c : Cursor) : Except Unit Cursor :=
  match c with
  | .mk q i o joins p _ jr => do
      let res ← find q i o
      if joins.length > 0 then createJoin (.mk q i o joins p res jr)
      else .ok (.mk q i o joins p res jr)
termination_by 3 * cursorWeight c + 2
decreasing_by
  all_goals simp [cursorWeight, joinsWeight]

/-- `createJoin()`: resolve every foreign cursor (phase 1), then append
one joined record per local result to `#joinedResults` (phase 2; note
the source never clears `#joinedResults`). -/
def createJoin (c : Cursor) : Except Unit Cursor :=
  match c with
  | .mk q i o joins p res jr => do
      let resolved ← execJoins joins res
      let newJoined := res.map (buildJoined resolved)
      .ok (.mk q i o (joinListOfResolved resolved) p res (jr ++ newJoined))
termination_by 3 * cursorWeight c + 1
decreasing_by
  all_goals simp [cursorWeight, joinsWeight]
  all_goals omega

/-- Phase 1 of `createJoin`: for each join, collect the local values at
`j.where[0]`, narrow the foreign cursor with
`mixQuery({$intern: [{[j.where[1]]: {$in: mixes}}]})` and execute it
(`toArray()` = `exec` + `results` getter).  Returns each join spec with
its (mutated) foreign cursor and the resolved foreign records. -/
def execJoins (joins : JoinList) (res : List Val) :
    Except Unit (List ResolvedJoin) :=
  match joins with
  | .nil => .ok []
  | .cons jc wl wf as_ rest => do
      let mixes := res.map (fun item => getProp item wl)
      let jc1 := mixQuery jc (.obj [("$intern",
        .arr [.obj [(wf, .obj [("$in", .arr mixes)])]])])
      let jc2 ← exec jc1
      let arr ← cursorResults jc2
      let restRes ← execJoins rest res
      .ok ((jc2, wl, wf, as_, arr) :: restRes)
termination_by 3 * joinsWeight joins + 3
decreasing_by
  all_goals simp [cursorWeight, joinsWeight]
  all_goals omega

end

/-! ## General lemmas -/

@[simp] theorem ebind_ok {α β : Type} (x : α) (f : α → Except Unit β) :
    (Except.ok x >>= f) = f x := rfl

@[simp] theorem ebind_error {α β : Type} (f : α → Except Unit β) :
    ((Except.error () : Except Unit α) >>= f) = Except.error () := rfl

@[simp] theorem jsEq_obj_left (fs : Fields) (v : Val) :
    jsEq (.obj fs) v = false := by cases v <;> rfl

@[simp] theorem jsEq_arr_left (es : List Val) (v : Val) :
    jsEq (.arr es) v = false := by cases v <;> rfl

/-! ## C9: negative skip is clamped to zero -/

/-- C9: for every query, record sequence, limit and direction, a scan
with negative skip `k < 0` returns exactly what the same scan with
skip `0` returns. -/
theorem c9_negative_skip_clamped (q : Val) (items : List Val) (k : Int)
    (lim : Option Nat) (rev : Bool) (hk : k < 0) :
    find q items ⟨k, lim, rev⟩ = find q items ⟨0, lim, rev⟩ := by
  simp [find, hk]

theorem c9_negative_skip_clamped_witness :
    (-2 : Int) < 0 ∧
      find (.obj [("t", .num 1)]) [.obj [("t", .num 1)]] ⟨-2, none, true⟩ =
        find (.obj [("t", .num 1)]) [.obj [("t", .num 1)]] ⟨0, none, true⟩ :=
  ⟨by decide, c9_negative_skip_clamped _ _ _ _ _ (by decide)⟩

/-! ## C4: `$exists` semantics through the full matcher -/

/-- C4 counterexample: the claim says `{a: {$exists: false}}` matches a
record in which `a` is absent; the code returns `false` (the falsy-field
guard in `logic` rejects the record before the predicate runs). -/
theorem c4_exists_false_counterexample :
    matchQ (.obj [("a", .obj [("$exists", .bool false)])]) (.obj []) =
      .ok false ∧
    (Except.ok false : Except Unit Bool) ≠ .ok true :=
  ⟨rfl, by simp⟩

/-- C4 amended: for every non-combinator field key `a`,
`{a: {$exists: true}}` matches exactly the records whose flattened
value at `a` is truthy, and `{a: {$exists: false}}` never matches any
record: the `!item[key]` guard in `logic` returns `false` for
absent/falsy fields before `$exists` is consulted, and on truthy fields
the `$exists`-with-`false` predicate itself fails. -/
theorem c4_exists_amended (a : String) (item : Val)
    (hgate : LOGICGATES a = none) :
    matchQ (.obj [(a, .obj [("$exists", .bool true)])]) item =
      .ok (jsTruthy (lookupD (flat item) a)) ∧
    matchQ (.obj [(a, .obj [("$exists", .bool false)])]) item =
      .ok false := by
  cases h : jsTruthy (lookupD (flat item) a) <;>
    simp [matchQ, matchE, matchKeysE, matchKeyE, objectKeysE, logicE,
      logicLoop, LOGICS, getProp, lookupD, applyGateE,
      jsTypeofIsObject, hgate, h, jsEq]

theorem c4_exists_amended_witness :
    LOGICGATES "a" = none ∧
    (matchQ (.obj [("a", .obj [("$exists", .bool true)])])
        (.obj [("a", .num 5)]) =
      .ok (jsTruthy (lookupD (flat (.obj [("a", .num 5)])) "a")) ∧
    matchQ (.obj [("a", .obj [("$exists", .bool false)])])
        (.obj [("a", .num 5)]) = .ok false) :=
  ⟨rfl, c4_exists_amended "a" (.obj [("a", .num 5)]) rfl⟩

/-! ## C10: predicate objects never match falsy/absent fields -/

/-- C10 counterexample: an *empty* predicate object matches even a
record in which the field is absent (`Object.keys({})` is empty, so the
`logic` loop never runs and returns `true`), contradicting the claim
for that degenerate predicate object. -/
theorem c10_empty_predicate_object_counterexample :
    matchQ (.obj [("k", .obj [])]) (.obj []) = .ok true := rfl

/-- C10 amended: for every non-empty predicate object at a
non-combinator key `k`, if the record's flattened value at `k` is falsy
or absent, the single-key match returns `false`, regardless of which
predicates the object contains. -/
theorem c10_falsy_field_fails_predicates (k : String) (qfs : Fields)
    (item : Val) (hne : qfs ≠ []) (hgate : LOGICGATES k = none)
    (hfal : jsTruthy (lookupD (flat item) k) = false) :
    matchQ (.obj [(k, .obj qfs)]) item = .ok false := by
  obtain ⟨⟨n, v⟩, rest, rfl⟩ := List.exists_cons_of_ne_nil hne
  simp [matchQ, matchE, matchKeysE, matchKeyE, objectKeysE, logicE,
    logicLoop, getProp, lookupD, applyGateE, jsTypeofIsObject, hgate, hfal]

theorem c10_falsy_field_fails_predicates_witness :
    ([("$ne", Val.num 5)] : Fields) ≠ [] ∧
    LOGICGATES "k" = none ∧
    jsTruthy (lookupD (flat (.obj [("k", .num 0)])) "k") = false ∧
    matchQ (.obj [("k", .obj [("$ne", .num 5)])]) (.obj [("k", .num 0)]) =
      .ok false :=
  ⟨by simp, rfl, rfl,
    c10_falsy_field_fails_predicates "k" [("$ne", .num 5)]
      (.obj [("k", .num 0)]) (by simp) rfl rfl⟩

/-! ## C5: malformed constraint objects -/

/-- C5 counterexample: a `null` constraint value has
`typeof === "object"`, and `Object.keys(null)` throws, so `match` throws
instead of returning `false` for that key. -/
theorem c5_null_constraint_throws :
    matchQ (.obj [("a", .null)]) (.obj [("x", .num 1)]) = .error () := rfl

/-- C5 amended: for a non-null, non-empty constraint object none of
whose keys is a known predicate name, at a non-combinator key, `match`
terminates normally with `false` for that key (it never reaches a
predicate call, so it cannot throw); `null` constraint values throw and
empty objects vacuously match instead. -/
theorem c5_unknown_keys_fail_closed (k : String) (qfs : Fields)
    (item : Val) (hne : qfs ≠ [])
    (hunknown : ∀ p ∈ qfs, LOGICS p.1 = none)
    (hgate : LOGICGATES k = none) :
    matchQ (.obj [(k, .obj qfs)]) item = .ok false := by
  obtain ⟨⟨n, v⟩, rest, rfl⟩ := List.exists_cons_of_ne_nil hne
  have hn : LOGICS n = none := hunknown (n, v) (List.mem_cons_self _ _)
  cases h : jsTruthy (lookupD (flat item) k) <;>
    simp [matchQ, matchE, matchKeysE, matchKeyE, objectKeysE, logicE,
      logicLoop, getProp, lookupD, applyGateE, jsTypeofIsObject, hgate,
      h, hn]

theorem c5_unknown_keys_fail_closed_witness :
    ([("notAPredicate", Val.num 1)] : Fields) ≠ [] ∧
    (∀ p ∈ ([("notAPredicate", Val.num 1)] : Fields), LOGICS p.1 = none) ∧
    LOGICGATES "a" = none ∧
    matchQ (.obj [("a", .obj [("notAPredicate", .num 1)])])
      (.obj [("a", .num 7)]) = .ok false :=
  ⟨by simp, by intro p hp; simp at hp; subst hp; rfl, rfl,
    c5_unknown_keys_fail_closed "a" [("notAPredicate", .num 1)]
      (.obj [("a", .num 7)]) (by simp)
      (by intro p hp; simp at hp; subst hp; rfl) rfl⟩

/-! ## Matcher lemmas shared by the combinator claims -/

@[simp] theorem lookupD_single (k : String) (v : Val) :
    lookupD [(k, v)] k = v := by simp [lookupD]

theorem lookupD_mem_of_mem_keys (qf : Fields) (k : String)
    (hk : k ∈ qf.map Prod.fst) : (k, lookupD qf k) ∈ qf := by
  induction qf with
  | nil => simp at hk
  | cons p rest ih =>
      obtain ⟨k', v'⟩ := p
      by_cases h : k' = k
      · subst h
        simp [lookupD]
      · have hk' : k ∈ rest.map Prod.fst := by
          rcases List.mem_cons.mp hk with h' | h'
          · exact absurd h'.symm h
          · exact h'
        simp only [lookupD, if_neg h]
        exact List.mem_cons_of_mem _ (ih hk')

theorem lookupD_eq_of_nodup (qf : Fields) (k : String) (v : Val)
    (hmem : (k, v) ∈ qf) (hnd : (qf.map Prod.fst).Nodup) :
    lookupD qf k = v := by
  induction qf with
  | nil => simp at hmem
  | cons p rest ih =>
      obtain ⟨k', v'⟩ := p
      simp only [List.map_cons, List.nodup_cons] at hnd
      rcases List.mem_cons.mp hmem with h | h
      · obtain ⟨h1, h2⟩ := Prod.mk.injEq .. ▸ h
        injection h with h1 h2
        subst h1; subst h2
        simp [lookupD]
      · have hne : k' ≠ k := by
          rintro rfl
          exact hnd.1 (List.mem_map.mpr ⟨(k', v), h, rfl⟩)
        simpa [lookupD, hne] using ih h hnd.2

/-- The per-key evaluation of `match` depends on the query object only
through the value stored at that key. -/
theorem matchKeyE_query_lookup (qf : Fields) (copy : Fields) (k : String) :
    matchKeyE (.obj qf) copy k = matchKeyE (.obj [(k, lookupD qf k)]) copy k := by
  simp [matchKeyE, logicE, getProp]

/-- When the constraint value is an object and the key is not a
combinator name, the per-key evaluation of `match` is exactly `logic`
(the literal-equality branch cannot fire on an object value). -/
theorem matchKeyE_of_obj_constraint (qf : Fields) (copy : Fields)
    (k : String) (fs : Fields) (hv : lookupD qf k = .obj fs)
    (hg : LOGICGATES k = none) :
    matchKeyE (.obj qf) copy k = logicE (.obj qf) copy k := by
  have hq : getProp (Val.obj qf) k = Val.obj fs := by simp [getProp, hv]
  cases hb : logicE (.obj qf) copy k with
  | error e =>
      cases e
      simp [matchKeyE, hq, hg, hb, jsTypeofIsObject]
  | ok b =>
      cases b <;> simp [matchKeyE, hq, hg, hb, jsTypeofIsObject]

/-- `keys.every` over `match`'s per-key test succeeds exactly when every
key's test succeeds. -/
theorem matchKeysE_ok_true_iff (q : Val) (copy : Fields) (ks : List String) :
    matchKeysE q copy ks = .ok true ↔
      ∀ k ∈ ks, matchKeyE q copy k = .ok true := by
  induction ks with
  | nil => simp [matchKeysE]
  | cons k rest ih =>
      simp only [matchKeysE, List.forall_mem_cons]
      cases hb : matchKeyE q copy k with
      | error e => cases e; simp [hb]
      | ok b => cases b <;> simp [hb, ih]

/-! ## C7: the matcher is conjunctive over query keys -/

/-- C7: for a query with pairwise-distinct keys and no combinator keys,
`match(q, r)` succeeds iff each single-key restriction of `q`
succeeds.  (Pairwise distinctness is automatic for real JS object
literals, which cannot repeat a key.) -/
theorem c7_match_conjunction (qf : Fields) (item : Val)
    (hnd : (qf.map Prod.fst).Nodup)
    (hnogate : ∀ p ∈ qf, LOGICGATES p.1 = none) :
    matchQ (.obj qf) item = .ok true ↔
      ∀ p ∈ qf, matchQ (.obj [p]) item = .ok true := by
  have hmq : ∀ (g : Fields),
      matchQ (.obj g) item = matchKeysE (.obj g) (flat item) (g.map Prod.fst) :=
    fun g => rfl
  rw [hmq, matchKeysE_ok_true_iff]
  constructor
  · intro h p hp
    obtain ⟨k0, v0⟩ := p
    rw [hmq, matchKeysE_ok_true_iff]
    intro k hk
    simp only [List.map_cons, List.map_nil, List.mem_singleton] at hk
    rw [hk]
    have hh := h k0 (List.mem_map.mpr ⟨(k0, v0), hp, rfl⟩)
    rw [matchKeyE_query_lookup, lookupD_eq_of_nodup qf k0 v0 hp hnd] at hh
    exact hh
  · intro h k hk
    obtain ⟨p, hp, heq⟩ := List.mem_map.mp hk
    obtain ⟨k0, v0⟩ := p
    subst heq
    have hh := h (k0, v0) hp
    rw [hmq, matchKeysE_ok_true_iff] at hh
    have hh := hh k0 (by simp)
    rw [matchKeyE_query_lookup, lookupD_single] at hh
    rw [matchKeyE_query_lookup, lookupD_eq_of_nodup qf k0 v0 hp hnd]
    exact hh

theorem c7_match_conjunction_witness :
    ((([("a", Val.num 1), ("b", Val.num 2)] : Fields).map Prod.fst).Nodup) ∧
    (∀ p ∈ ([("a", Val.num 1), ("b", Val.num 2)] : Fields),
      LOGICGATES p.1 = none) ∧
    (matchQ (.obj [("a", .num 1), ("b", .num 2)])
        (.obj [("a", .num 1), ("b", .num 2)]) = .ok true ↔
      ∀ p ∈ ([("a", Val.num 1), ("b", Val.num 2)] : Fields),
        matchQ (.obj [p]) (.obj [("a", .num 1), ("b", .num 2)]) = .ok true) :=
  ⟨by simp,
    by
      intro p hp
      simp at hp
      rcases hp with rfl | rfl <;> rfl,
    c7_match_conjunction _ _ (by simp)
      (by
        intro p hp
        simp at hp
        rcases hp with rfl | rfl <;> rfl)⟩

/-! ## C6: `$or` versus disjunction of `match` -/

/-- C6 counterexample: `$or` evaluates its sub-queries with `logic`
only; a literal-equality sub-query like `{a: 1}` has
`Object.keys(1) = []`, so it is vacuously true inside `$or` even though
`match({a:1}, r)` is false.  On the empty record the combinator query
matches while both disjuncts fail. -/
theorem c6_or_literal_counterexample :
    matchQ (.obj [("$or", .arr [.obj [("a", .num 1)], .obj [("b", .num 2)]])])
        (.obj []) = .ok true ∧
    matchQ (.obj [("a", .num 1)]) (.obj []) = .ok false ∧
    matchQ (.obj [("b", .num 2)]) (.obj []) = .ok false :=
  ⟨rfl, rfl, rfl⟩

/-- `matchKeysE` coincides with the gate-side `everyKeyLogicE` when all
constraint values are objects and no key is a combinator name. -/
theorem matchKeysE_eq_everyKey_aux (qf : Fields) (copy : Fields)
    (h : ∀ p ∈ qf, (∃ fs, p.2 = Val.obj fs) ∧ LOGICGATES p.1 = none) :
    ∀ ks, (∀ k ∈ ks, k ∈ qf.map Prod.fst) →
      matchKeysE (.obj qf) copy ks = everyKeyLogicE (.obj qf) copy ks := by
  intro ks
  induction ks with
  | nil => intro _; rfl
  | cons k rest ih =>
      intro hks
      have hk := hks k (List.mem_cons_self _ _)
      have hmem := lookupD_mem_of_mem_keys qf k hk
      obtain ⟨⟨fs, hfs⟩, hg⟩ := h _ hmem
      have hkey := matchKeyE_of_obj_constraint qf copy k fs hfs hg
      simp only [matchKeysE, everyKeyLogicE, hkey]
      cases hb : logicE (.obj qf) copy k with
      | error e => cases e; simp [hb]
      | ok b =>
          cases b <;>
            simp [hb, ih (fun k' hk' => hks k' (List.mem_cons_of_mem _ hk'))]

/-- C6 amended: `{$or: [q1, q2]}` matches exactly when `match(q1, r) ||
match(q2, r)` *provided* every constraint value of `q1`, `q2` is a
predicate object (and no key is a combinator name); literal-equality
sub-queries are evaluated vacuously true by `$or` instead. -/
theorem c6_or_amended (q1f q2f : Fields) (item : Val) (b1 b2 : Bool)
    (h1 : ∀ p ∈ q1f, (∃ fs, p.2 = Val.obj fs) ∧ LOGICGATES p.1 = none)
    (h2 : ∀ p ∈ q2f, (∃ fs, p.2 = Val.obj fs) ∧ LOGICGATES p.1 = none)
    (e1 : matchQ (.obj q1f) item = .ok b1)
    (e2 : matchQ (.obj q2f) item = .ok b2) :
    matchQ (.obj [("$or", .arr [.obj q1f, .obj q2f])]) item =
      .ok (b1 || b2) := by
  have e1' : everyKeyLogicE (.obj q1f) (flat item) (q1f.map Prod.fst) = .ok b1 := by
    rw [← matchKeysE_eq_everyKey_aux q1f (flat item) h1 _ (fun k hk => hk)]
    exact e1
  have e2' : everyKeyLogicE (.obj q2f) (flat item) (q2f.map Prod.fst) = .ok b2 := by
    rw [← matchKeysE_eq_everyKey_aux q2f (flat item) h2 _ (fun k hk => hk)]
    exact e2
  have hlog : logicE (.obj [("$or", .arr [.obj q1f, .obj q2f])])
      (flat item) "$or" = .ok false := by
    have hnames : objectKeysE (Val.arr [Val.obj q1f, Val.obj q2f]) =
        .ok ["0", "1"] := by
      show Except.ok ((List.range 2).map toString) = _
      rfl
    have hl0 : LOGICS "0" = none := rfl
    cases hiv : jsTruthy (lookupD (flat item) "$or") <;>
      simp [logicE, getProp, lookupD_single, hnames, logicLoop, hiv, hl0]
  have hgate : applyGateE .or (.arr [.obj q1f, .obj q2f]) (flat item) =
      .ok (b1 || b2) := by
    simp only [applyGateE, someSubE, objectKeysE, ebind_ok]
    rw [e1']
    cases b1
    · simp only [ebind_ok, Bool.false_eq_true, if_false, someSubE,
        objectKeysE, Bool.false_or]
      rw [e2']
      cases b2 <;> simp [someSubE]
    · simp
  have hkey : matchKeyE (.obj [("$or", .arr [.obj q1f, .obj q2f])])
      (flat item) "$or" = .ok (b1 || b2) := by
    simp only [matchKeyE, getProp, lookupD_single, jsEq_arr_left,
      jsTypeofIsObject, Bool.false_eq_true, if_false, if_true]
    rw [hlog]
    simpa [LOGICGATES] using hgate
  have : matchQ (.obj [("$or", .arr [.obj q1f, .obj q2f])]) item =
      matchKeysE (.obj [("$or", .arr [.obj q1f, .obj q2f])]) (flat item)
        ["$or"] := rfl
  rw [this]
  simp only [matchKeysE, hkey, ebind_ok]
  cases b1 <;> cases b2 <;> simp

theorem c6_or_amended_witness :
    matchQ (.obj [("a", .obj [("$eq", .num 1)])]) (.obj [("a", .num 1)]) =
      .ok true ∧
    matchQ (.obj [("b", .obj [("$eq", .num 2)])]) (.obj [("a", .num 1)]) =
      .ok false ∧
    matchQ (.obj [("$or", .arr [.obj [("a", .obj [("$eq", .num 1)])],
        .obj [("b", .obj [("$eq", .num 2)])]])]) (.obj [("a", .num 1)]) =
      .ok (true || false) :=
  ⟨rfl, rfl,
    c6_or_amended [("a", .obj [("$eq", .num 1)])]
      [("b", .obj [("$eq", .num 2)])] (.obj [("a", .num 1)]) true false
      (by
        intro p hp
        simp only [List.mem_singleton] at hp
        subst hp
        exact ⟨⟨_, rfl⟩, rfl⟩)
      (by
        intro p hp
        simp only [List.mem_singleton] at hp
        subst hp
        exact ⟨⟨_, rfl⟩, rfl⟩)
      rfl rfl⟩

/-! ## C1: skip discards exactly the first `skip` matches -/

/-- With unbounded limit, running the scan loop with a skip budget
returns the skip-free result with its first `skip - skipped` elements
removed. -/
theorem findLoop_drop (q : Val) (keys : List String) :
    ∀ (tl : List Val) (skip skipped : Nat) (l : List Val),
      findLoop q keys tl 0 0 none = .ok l →
      findLoop q keys tl skip skipped none = .ok (l.drop (skip - skipped)) := by
  intro tl
  induction tl with
  | nil =>
      intro skip skipped l h0
      simp only [findLoop] at h0 ⊢
      obtain rfl : l = [] := by simpa using h0.symm
      simp
  | cons it rest ih =>
      intro skip skipped l h0
      by_cases hit : jsTruthy it
      · simp only [findLoop, hit, Bool.not_true, Bool.false_eq_true, if_false,
          reduceCtorEq, if_neg, Option.map_none'] at h0 ⊢
        cases hm : matchE q it keys with
        | error e => cases e; rw [hm] at h0; simp at h0
        | ok b =>
            rw [hm] at h0
            simp only [ebind_ok] at h0 ⊢
            cases b
            · simp only [Bool.false_eq_true, if_false] at h0 ⊢
              exact ih skip skipped l h0
            · simp only [if_true] at h0 ⊢
              cases htl : findLoop q keys rest 0 0 none with
              | error e => cases e; rw [htl] at h0; simp at h0
              | ok tail =>
                  rw [htl] at h0
                  simp only [ebind_ok] at h0
                  obtain rfl : l = it :: tail := by
                    simpa using h0.symm
                  by_cases hsk : skip ≤ skipped
                  · simp only [hsk, if_true]
                    rw [ih skip skipped tail htl]
                    simp only [ebind_ok]
                    have : skip - skipped = 0 := by omega
                    simp [this]
                  · simp only [hsk, if_false]
                    rw [ih skip (skipped + 1) tail htl]
                    obtain ⟨d, hd⟩ : ∃ d, skip - skipped = d + 1 :=
                      ⟨skip - skipped - 1, by omega⟩
                    rw [hd, List.drop_succ_cons]
                    congr 2
                    omega
      · simp only [findLoop, hit] at h0 ⊢
        obtain rfl : l = [] := by simpa using h0.symm
        simp

/-- `find` unfolded to its loop, for non-zero limits. -/
theorem find_eq_findLoop (q : Val) (items : List Val) (sk : Int)
    (lim : Option Nat) (rev : Bool) (keys : List String)
    (hko : objectKeysE q = .ok keys) (hlim : ¬lim = some 0) :
    find q items ⟨sk, lim, rev⟩ =
      findLoop q keys (if rev then items.reverse else items)
        ((if sk < 0 then 0 else sk).toNat) 0 lim := by
  unfold find
  rw [hko]
  simp [hlim]

/-- C1: with unbounded limit, `find` with skip `k ≥ 0` returns the
skip-free scan result with its first `k` elements removed (so skip
discards exactly the first `k` *matching* records; non-matches are not
counted), in either scan direction, whenever `k` is at most the total
match count. -/
theorem c1_skip_drops_matches (q : Val) (items : List Val) (k : Nat)
    (rev : Bool) (l : List Val)
    (h0 : find q items ⟨0, none, rev⟩ = .ok l)
    (hk : k ≤ l.length) :
    find q items ⟨(k : Int), none, rev⟩ = .ok (l.drop k) := by
  cases hko : objectKeysE q with
  | error e =>
      cases e
      unfold find at h0
      rw [hko] at h0
      simp at h0
  | ok keys =>
      rw [find_eq_findLoop q items 0 none rev keys hko (by simp)] at h0
      rw [find_eq_findLoop q items (k : Int) none rev keys hko (by simp)]
      have hc0 : ((if (0 : Int) < 0 then 0 else (0 : Int))).toNat = 0 := rfl
      have hck : ((if (k : Int) < 0 then 0 else (k : Int))).toNat = k := by
        rw [if_neg (Int.not_lt.mpr (Int.natCast_nonneg k))]
        exact Int.toNat_natCast k
      rw [hc0] at h0
      rw [hck]
      simpa using findLoop_drop q keys _ k 0 l h0

theorem c1_skip_drops_matches_witness :
    find (.obj [("t", .num 1)])
        [.obj [("t", .num 1), ("id", .num 0)], .obj [("t", .num 0)],
         .obj [("t", .num 1), ("id", .num 2)]] ⟨0, none, false⟩ =
      .ok [.obj [("t", .num 1), ("id", .num 0)],
           .obj [("t", .num 1), ("id", .num 2)]] ∧
    1 ≤ 2 ∧
    find (.obj [("t", .num 1)])
        [.obj [("t", .num 1), ("id", .num 0)], .obj [("t", .num 0)],
         .obj [("t", .num 1), ("id", .num 2)]] ⟨(1 : Nat), none, false⟩ =
      .ok (List.drop 1
        [.obj [("t", .num 1), ("id", .num 0)],
         .obj [("t", .num 1), ("id", .num 2)]]) :=
  ⟨rfl, by decide,
    c1_skip_drops_matches _ _ 1 false _ rfl (by simp)⟩

/-! ## C3: re-executing a cursor with joins duplicates joined results -/

/-- Foreign collection cursor: one record `{b: 1, name: "x"}`. -/
def c3Foreign : Cursor :=
  .mk (.obj []) [.obj [("b", .num 1), ("name", .str "x")]]
    ⟨0, none, false⟩ .nil (.obj []) [] []

/-- Local cursor over `[{a: 1}]` with one declared join
`{cursor: c3Foreign, where: ["a", "b"], as: "f"}`. -/
def c3Local : Cursor :=
  .mk (.obj []) [.obj [("a", .num 1)]] ⟨0, none, false⟩
    (.cons c3Foreign "a" "b" "f" .nil) (.obj []) [] []

/-- The joined record the pipeline produces for `c3Local`. -/
def c3Joined : Val :=
  .obj [("a", .num 1), ("f", .obj [("b", .num 1), ("name", .str "x")])]

/-- The `$intern` restriction `createJoin` mixes into the foreign
cursor's query for `c3Local`. -/
def c3InternQ : Val :=
  .obj [("$intern", .arr [.obj [("b", .obj [("$in", .arr [.num 1])])]])]

def c3ForeignItems : List Val := [.obj [("b", .num 1), ("name", .str "x")]]

/-- `c3Foreign` after `mixQuery` has installed the `$intern` clause. -/
def c3Foreign1 : Cursor :=
  .mk c3InternQ c3ForeignItems ⟨0, none, false⟩ .nil (.obj []) [] []

/-- `c3Foreign1` after execution (its `#results` filled in). -/
def c3Foreign2 : Cursor :=
  .mk c3InternQ c3ForeignItems ⟨0, none, false⟩ .nil (.obj []) c3ForeignItems []

/-- `c3Local` after its first `exec()`. -/
def c3Local1 : Cursor :=
  .mk (.obj []) [.obj [("a", .num 1)]] ⟨0, none, false⟩
    (.cons c3Foreign2 "a" "b" "f" .nil) (.obj []) [.obj [("a", .num 1)]]
    [c3Joined]

/-- `c3Local` after its second `exec()`: `#joinedResults` has doubled. -/
def c3Local2 : Cursor :=
  .mk (.obj []) [.obj [("a", .num 1)]] ⟨0, none, false⟩
    (.cons c3Foreign2 "a" "b" "f" .nil) (.obj []) [.obj [("a", .num 1)]]
    [c3Joined, c3Joined]

theorem c3_foreign_exec : exec c3Foreign1 = .ok c3Foreign2 := by
  rw [exec.eq_def]
  rfl

theorem c3_foreign_reexec : exec c3Foreign2 = .ok c3Foreign2 := by
  rw [exec.eq_def]
  rfl

theorem c3_first_exec : exec c3Local = .ok c3Local1 := by
  rw [exec.eq_def]
  show createJoin (Cursor.mk (.obj []) [.obj [("a", .num 1)]] ⟨0, none, false⟩
    (.cons c3Foreign "a" "b" "f" .nil) (.obj []) [.obj [("a", .num 1)]] []) = _
  rw [createJoin.eq_def]
  dsimp only
  rw [execJoins.eq_def]
  dsimp only
  rw [show (mixQuery c3Foreign (Val.obj [("$intern", Val.arr [Val.obj [("b",
        Val.obj [("$in", Val.arr (List.map (fun item => getProp item "a")
          [Val.obj [("a", Val.num 1)]]))])]])])) = c3Foreign1 from rfl]
  rw [c3_foreign_exec]
  simp only [ebind_ok]
  rw [show cursorResults c3Foreign2 = .ok c3ForeignItems from rfl]
  simp only [ebind_ok]
  rw [execJoins.eq_def]
  rfl

theorem c3_second_exec : exec c3Local1 = .ok c3Local2 := by
  rw [exec.eq_def]
  show createJoin (Cursor.mk (.obj []) [.obj [("a", .num 1)]] ⟨0, none, false⟩
    (.cons c3Foreign2 "a" "b" "f" .nil) (.obj []) [.obj [("a", .num 1)]]
    [c3Joined]) = _
  rw [createJoin.eq_def]
  dsimp only
  rw [execJoins.eq_def]
  dsimp only
  rw [show (mixQuery c3Foreign2 (Val.obj [("$intern", Val.arr [Val.obj [("b",
        Val.obj [("$in", Val.arr (List.map (fun item => getProp item "a")
          [Val.obj [("a", Val.num 1)]]))])]])])) = c3Foreign2 from rfl]
  rw [c3_foreign_reexec]
  simp only [ebind_ok]
  rw [show cursorResults c3Foreign2 = .ok c3ForeignItems from rfl]
  simp only [ebind_ok]
  rw [execJoins.eq_def]
  rfl

/-- C3: executing the join cursor once yields one joined record, but
executing it a second time with unchanged configuration appends the
joined records again (`createJoin` never clears `#joinedResults`), so
the visible result set doubles instead of being reproduced. -/
theorem c3_exec_rerun_duplicates_joined_results :
    exec c3Local = .ok c3Local1 ∧
    exec c3Local1 = .ok c3Local2 ∧
    cursorResults c3Local1 = .ok [c3Joined] ∧
    cursorResults c3Local2 = .ok [c3Joined, c3Joined] ∧
    ([c3Joined] : List Val) ≠ [c3Joined, c3Joined] :=
  ⟨c3_first_exec, c3_second_exec, rfl, rfl, by simp⟩

/-! ## C8: hiding a nested path in a projection -/

/-- C8: projecting `{a: {b: 1, c: 2}}` with `{"a.b": false}` leaves the
record unchanged — the hide branch tests `newItem["a.b"]` on the
*nested* record, where no literal `"a.b"` key exists — instead of
producing the `{a: {c: 2}}` the spec documents. -/
theorem c8_nested_hide_is_noop :
    project [.obj [("a", .obj [("b", .num 1), ("c", .num 2)])]]
        (.obj [("a.b", .bool false)]) =
      .ok [.obj [("a", .obj [("b", .num 1), ("c", .num 2)])]] ∧
    Val.obj [("a", .obj [("b", .num 1), ("c", .num 2)])] ≠
      Val.obj [("a", .obj [("c", .num 2)])] :=
  ⟨rfl, by simp⟩

/-! ## C2: flatten/unflatten round-trip -/

/-- C2 counterexample: `flat` writes list elements under bracketed
paths (`a[0]`), but `unflatten` only splits keys on `"."`, so a record
with a non-empty list does not round-trip: `{a: [1]}` flattens to
`{"a[0]": 1}` and unflattens to `{"a[0]": 1}`, not back to `{a: [1]}`. -/
theorem c2_list_roundtrip_counterexample :
    flat (.obj [("a", .arr [.num 1])]) = [("a[0]", .num 1)] ∧
    unflatten (flat (.obj [("a", .arr [.num 1])])) =
      .ok (.obj [("a[0]", .num 1)]) ∧
    Val.obj [("a[0]", .num 1)] ≠ Val.obj [("a", .arr [.num 1])] :=
  ⟨rfl, rfl, by simp⟩

/-- A record key `unflatten` can reconstruct: no `"."` (the split
separator) and not parseable as a JS number (which would make
`unflatten` build an array).  Such a key is in particular non-empty
(`Number("") == 0`). -/
def goodKey (k : String) : Bool :=
  !(k.data.contains '.') && !jsNumericString k

mutual

/-- Values within the round-trip fragment of the claim: no non-empty
lists, and every record key is a `goodKey`, pairwise distinct among its
siblings. -/
def goodVal : Val → Bool
  | .str _ => true
  | .num _ => true
  | .bool _ => true
  | .null => true
  | .undefined => true
  | .obj fields => goodFields fields
  | .arr es => es.isEmpty

def goodFields : List (String × Val) → Bool
  | [] => true
  | (k, v) :: rest =>
      goodKey k && !((rest.map Prod.fst).contains k) && goodVal v &&
        goodFields rest

end

/-- Joining path segments with `"."`, the way `flat` builds its path
from the root. -/
def dotJoin : List String → String
  | [] => ""
  | [s] => s
  | s :: rest => s ++ "." ++ dotJoin rest

mutual

/-- Proof-side description of the shared `isEmpty` after `recurseFlat`
processes a list-free value, as a function of its value on entry:
primitives and empty arrays leave it alone, a record sets it and then
runs the field loop (which clears it before each field), so after a
record it holds whatever the last field's value left behind — `true`
exactly for a chain of records ending in an empty one. -/
def teUp : Val → Bool → Bool
  | .obj fs, _ => teFieldsUp fs true
  | _, b => b

def teFieldsUp : List (String × Val) → Bool → Bool
  | [], b => b
  | (_, v) :: rest, _ => teFieldsUp rest (teUp v false)

end

mutual

/-- Proof-side description of `flat`'s output for list-free values: the
terminal entries of a value, with paths as *relative segment lists*
(empty for a terminal).  The `.arr` case is only ever used for empty
arrays, which `flat` emits as terminals.  A non-empty record whose
field loop leaves the shared `isEmpty` set (its last field's value ends
in an empty record) additionally emits a spurious `{}` at its own path,
*after* all of its field entries. -/
def flatEntries : Val → List (List String × Val)
  | .obj [] => [([], .obj [])]
  | .obj (f :: rest) =>
      fieldsEntries (f :: rest) ++
        (if teFieldsUp (f :: rest) true then [([], .obj [])] else [])
  | v => [([], v)]

def fieldsEntries : List (String × Val) → List (List String × Val)
  | [] => []
  | (k, v) :: rest =>
      (flatEntries v).map (fun e => (k :: e.1, e.2)) ++ fieldsEntries rest

end

/-- Folding `unflatInsert` over already-split entries. -/
def foldInsert (t : Val) (entries : List (List String × Val)) :
    Except Unit Val :=
  entries.foldlM (fun acc e => unflatInsert acc e.1 e.2) t

/-! ### String-level path lemmas -/

theorem str_append_assoc (a b c : String) : a ++ b ++ c = a ++ (b ++ c) :=
  String.ext (by simp [String.data_append])

theorem dotJoin_cons (s : String) (rest : List String) (h : rest ≠ []) :
    dotJoin (s :: rest) = s ++ "." ++ dotJoin rest := by
  cases rest with
  | nil => exact absurd rfl h
  | cons a l => rfl

theorem dotJoin_append_single (P : List String) (k : String) (h : P ≠ []) :
    dotJoin (P ++ [k]) = dotJoin P ++ "." ++ k := by
  induction P with
  | nil => exact absurd rfl h
  | cons p P ih =>
      cases P with
      | nil => rfl
      | cons q Q =>
          rw [List.cons_append, dotJoin_cons p ((q :: Q) ++ [k]) (by simp),
            dotJoin_cons p (q :: Q) (by simp), ih (by simp)]
          exact String.ext (by simp [String.data_append])

theorem splitDotL_ne_nil (cs : List Char) : splitDotL cs ≠ [] := by
  induction cs with
  | nil => simp [splitDotL]
  | cons c cs ih =>
      by_cases h : c = '.'
      · simp [splitDotL, h]
      · simp only [splitDotL, if_neg h]
        cases hs : splitDotL cs with
        | nil => simp
        | cons g gs => simp

theorem splitDotL_no_dot (cs : List Char) (h : '.' ∉ cs) :
    splitDotL cs = [cs] := by
  induction cs with
  | nil => rfl
  | cons c cs ih =>
      have hc : c ≠ '.' := by
        rintro rfl
        exact h (List.mem_cons_self _ _)
      have h' : '.' ∉ cs := fun hm => h (List.mem_cons_of_mem _ hm)
      simp [splitDotL, hc, ih h']

theorem splitDotL_append_dot (xs ys : List Char) (h : '.' ∉ xs) :
    splitDotL (xs ++ '.' :: ys) = xs :: splitDotL ys := by
  induction xs with
  | nil => simp [splitDotL]
  | cons c cs ih =>
      have hc : c ≠ '.' := by
        rintro rfl
        exact h (List.mem_cons_self _ _)
      have h' : '.' ∉ cs := fun hm => h (List.mem_cons_of_mem _ hm)
      rw [List.cons_append]
      simp only [splitDotL, if_neg hc]
      rw [ih h']

theorem splitDot_dotJoin (segs : List String) (hne : segs ≠ [])
    (hgood : ∀ s ∈ segs, s.data ≠ [] ∧ '.' ∉ s.data) :
    splitDot (dotJoin segs) = segs := by
  induction segs with
  | nil => exact absurd rfl hne
  | cons s rest ih =>
      cases rest with
      | nil =>
          obtain ⟨h1, h2⟩ := hgood s (by simp)
          simp [splitDot, dotJoin, splitDotL_no_dot _ h2]
      | cons t rest' =>
          obtain ⟨h1, h2⟩ := hgood s (by simp)
          rw [dotJoin_cons s (t :: rest') (by simp)]
          have hdata : (s ++ "." ++ dotJoin (t :: rest')).data =
              s.data ++ '.' :: (dotJoin (t :: rest')).data := by
            simp [String.data_append]
          simp only [splitDot, hdata, splitDotL_append_dot _ _ h2,
            List.map_cons]
          congr 1
          exact ih (by simp) (fun x hx => hgood x (by simp [hx]))

theorem dotJoin_inj (A B : List String) (hA : A ≠ []) (hB : B ≠ [])
    (hgA : ∀ s ∈ A, s.data ≠ [] ∧ '.' ∉ s.data)
    (hgB : ∀ s ∈ B, s.data ≠ [] ∧ '.' ∉ s.data)
    (h : dotJoin A = dotJoin B) : A = B := by
  rw [← splitDot_dotJoin A hA hgA, ← splitDot_dotJoin B hB hgB, h]

theorem goodKey_ne_empty (k : String) (h : goodKey k = true) :
    k.data ≠ [] := by
  intro hd
  have hk : k = "" := String.ext hd
  subst hk
  simp [goodKey, jsNumericString, listTrim] at h

theorem goodKey_no_dot (k : String) (h : goodKey k = true) :
    '.' ∉ k.data := by
  simp only [goodKey, Bool.and_eq_true, Bool.not_eq_true'] at h
  intro hm
  have := h.1
  simp only [List.contains_eq_any_beq] at this
  rw [List.any_eq_false] at this
  exact absurd (by simp : ('.' == '.') = true) (by simpa using this '.' hm)

theorem goodKey_not_numeric (k : String) (h : goodKey k = true) :
    jsNumericString k = false := by
  simp only [goodKey, Bool.and_eq_true, Bool.not_eq_true'] at h
  exact h.2

theorem dotJoin_ne_empty (P : List String) (hP : P ≠ [])
    (hg : ∀ s ∈ P, goodKey s = true) : dotJoin P ≠ "" := by
  intro h
  have hd : (dotJoin P).data = [] := h ▸ rfl
  cases P with
  | nil => exact hP rfl
  | cons s rest =>
      cases rest with
      | nil => exact goodKey_ne_empty s (hg s (by simp)) hd
      | cons t r =>
          rw [dotJoin_cons s (t :: r) (by simp)] at hd
          simp [String.data_append] at hd

/-! ### Association-list lemmas -/

theorem setKey_fresh (l : Fields) (k : String) (v : Val)
    (h : k ∉ l.map Prod.fst) : setKey l k v = l ++ [(k, v)] := by
  induction l with
  | nil => rfl
  | cons p rest ih =>
      obtain ⟨k', v'⟩ := p
      have hne : k' ≠ k := by
        rintro rfl
        exact h (by simp)
      simp only [setKey, if_neg hne, List.cons_append, List.cons.injEq,
        true_and]
      exact ih (fun hm => h (by simp [hm]))

theorem lookupD_not_mem (l : Fields) (k : String)
    (h : k ∉ l.map Prod.fst) : lookupD l k = .undefined := by
  induction l with
  | nil => rfl
  | cons p rest ih =>
      obtain ⟨k', v'⟩ := p
      have hne : k' ≠ k := by
        rintro rfl
        exact h (by simp)
      simp only [lookupD, if_neg hne]
      exact ih (fun hm => h (by simp [hm]))

theorem lookupD_setKey_same (l : Fields) (k : String) (v : Val) :
    lookupD (setKey l k v) k = v := by
  induction l with
  | nil => simp [setKey, lookupD]
  | cons p rest ih =>
      obtain ⟨k', v'⟩ := p
      by_cases h : k' = k
      · subst h
        simp [setKey, lookupD]
      · simp [setKey, lookupD, h, ih]

theorem setKey_setKey (l : Fields) (k : String) (a b : Val) :
    setKey (setKey l k a) k b = setKey l k b := by
  induction l with
  | nil => simp [setKey]
  | cons p rest ih =>
      obtain ⟨k', v'⟩ := p
      by_cases h : k' = k
      · subst h
        simp [setKey]
      · simp [setKey, h, ih]

/-! ### Entry-shape lemmas -/

mutual

theorem flatEntries_good (v : Val) (h : goodVal v = true) :
    ∀ e ∈ flatEntries v, ∀ s ∈ e.1, goodKey s = true := by
  match v with
  | .str _ | .num _ | .bool _ | .null | .undefined | .arr _ =>
      intro e he s hs
      simp [flatEntries] at he
      subst he
      simp at hs
  | .obj [] =>
      intro e he s hs
      simp [flatEntries] at he
      subst he
      simp at hs
  | .obj (f :: rest) =>
      intro e he s hs
      simp only [flatEntries, List.mem_append] at he
      rcases he with he | he
      · exact fieldsEntries_good (f :: rest) (by simpa [goodVal] using h)
          e he s hs
      · split at he
        · simp only [List.mem_singleton] at he
          subst he
          simp at hs
        · simp at he

theorem fieldsEntries_good (fs : Fields) (h : goodFields fs = true) :
    ∀ e ∈ fieldsEntries fs, ∀ s ∈ e.1, goodKey s = true := by
  match fs with
  | [] =>
      intro e he
      simp [fieldsEntries] at he
  | (k, v) :: rest =>
      intro e he s hs
      simp only [goodFields, Bool.and_eq_true] at h
      simp only [fieldsEntries, List.mem_append, List.mem_map] at he
      rcases he with ⟨e', he', rfl⟩ | he
      · rcases List.mem_cons.mp hs with rfl | hs'
        · exact h.1.1.1
        · exact flatEntries_good v h.1.2 e' he' s hs'
      · exact fieldsEntries_good rest h.2 e he s hs

end

mutual

theorem flatEntries_ne_nil (v : Val) (h : goodVal v = true) :
    flatEntries v ≠ [] := by
  match v with
  | .str _ | .num _ | .bool _ | .null | .undefined | .arr _ =>
      simp [flatEntries]
  | .obj [] => simp [flatEntries]
  | .obj (f :: rest) =>
      have := fieldsEntries_ne_nil (f :: rest) (by simpa [goodVal] using h)
        (by simp)
      simp only [flatEntries]
      intro hc
      rw [List.append_eq_nil] at hc
      exact this hc.1

theorem fieldsEntries_ne_nil (fs : Fields) (h : goodFields fs = true)
    (hne : fs ≠ []) : fieldsEntries fs ≠ [] := by
  match fs with
  | [] => exact absurd rfl hne
  | (k, v) :: rest =>
      simp only [goodFields, Bool.and_eq_true] at h
      have h1 := flatEntries_ne_nil v h.1.2
      simp only [fieldsEntries]
      intro hc
      rw [List.append_eq_nil] at hc
      exact h1 (List.map_eq_nil.mp hc.1)

end

theorem fieldsEntries_shape (fs : Fields) :
    ∀ e ∈ fieldsEntries fs, ∃ k t, e.1 = k :: t ∧ k ∈ fs.map Prod.fst := by
  induction fs with
  | nil => intro e he; simp [fieldsEntries] at he
  | cons p rest ih =>
      obtain ⟨k, v⟩ := p
      intro e he
      simp only [fieldsEntries, List.mem_append, List.mem_map] at he
      rcases he with ⟨e', _, rfl⟩ | he
      · exact ⟨k, e'.1, rfl, by simp⟩
      · obtain ⟨k', t', ht', hk'⟩ := ih e he
        exact ⟨k', t', ht', by simp [hk']⟩

theorem contains_false_iff (l : List String) (k : String) :
    (l.contains k = false) ↔ k ∉ l := by
  rw [← Bool.not_eq_true, List.contains_eq_any_beq, List.any_eq_true]
  simp

/-- A good key list gives the data-level side conditions of
`splitDot_dotJoin`. -/
theorem goodSegs_data (P : List String) (h : ∀ s ∈ P, goodKey s = true) :
    ∀ s ∈ P, s.data ≠ [] ∧ '.' ∉ s.data := fun s hs =>
  ⟨goodKey_ne_empty s (h s hs), goodKey_no_dot s (h s hs)⟩

/-- The path `recurseFlatFields` builds for a field equals the joined
extended segment list. -/
theorem flatPath_eq (P : List String) (k : String)
    (hPg : ∀ s ∈ P, goodKey s = true) :
    (if dotJoin P = "" then k else dotJoin P ++ "." ++ k) =
      dotJoin (P ++ [k]) := by
  cases P with
  | nil => simp [dotJoin]
  | cons a b =>
      rw [if_neg (dotJoin_ne_empty (a :: b) (by simp) hPg),
        dotJoin_append_single (a :: b) k (by simp)]

theorem flatFuel_pos (v : Val) : 1 ≤ flatFuel v := by
  cases v <;> simp [flatFuel]

theorem recurseFlatFields_nil (fuel : Nat) (prop : String) (st : FlatSt) :
    recurseFlatFields fuel [] prop st = st := by
  cases fuel <;> rfl

theorem recurseFlatArr_stop (fuel : Nat) (es : List Val) (prop : String)
    (iter : Nat) (st : FlatSt) (h : ¬ st.ix < st.len) :
    recurseFlatArr fuel es prop iter st = st := by
  cases fuel <;> cases iter <;> simp [recurseFlatArr, h]

mutual

/-- `recurseFlat` on a good value at a non-root prefix appends exactly
the value's entries (with paths joined from the prefix, including the
spurious trailing `{}` when the shared `isEmpty` survives the field
loop), and leaves `isEmpty` as `teUp` describes. -/
theorem recurseFlat_entries (fuel : Nat) (v : Val) (P : List String)
    (res : Fields) (ie : Bool) (ix0 len0 : Nat)
    (hfuel : flatFuel v ≤ fuel)
    (hv : goodVal v = true) (hP : P ≠ [])
    (hPg : ∀ s ∈ P, goodKey s = true)
    (hfresh : ∀ e ∈ flatEntries v, dotJoin (P ++ e.1) ∉ res.map Prod.fst) :
    ∃ ix' len', recurseFlat fuel v (dotJoin P) ⟨res, ie, ix0, len0⟩ =
      ⟨res ++ (flatEntries v).map (fun e => (dotJoin (P ++ e.1), e.2)),
        teUp v ie, ix', len'⟩ := by
  match fuel, v with
  | 0, v =>
      exact absurd hfuel (by have := flatFuel_pos v; omega)
  | fuel + 1, .str s =>
      have hf := hfresh ([], .str s) (by simp [flatEntries])
      simp only [List.append_nil] at hf
      exact ⟨ix0, len0, by
        simp [recurseFlat, flatEntries, teUp, setKey_fresh _ _ _ hf]⟩
  | fuel + 1, .num n =>
      have hf := hfresh ([], .num n) (by simp [flatEntries])
      simp only [List.append_nil] at hf
      exact ⟨ix0, len0, by
        simp [recurseFlat, flatEntries, teUp, setKey_fresh _ _ _ hf]⟩
  | fuel + 1, .bool b =>
      have hf := hfresh ([], .bool b) (by simp [flatEntries])
      simp only [List.append_nil] at hf
      exact ⟨ix0, len0, by
        simp [recurseFlat, flatEntries, teUp, setKey_fresh _ _ _ hf]⟩
  | fuel + 1, .null =>
      have hf := hfresh ([], .null) (by simp [flatEntries])
      simp only [List.append_nil] at hf
      exact ⟨ix0, len0, by
        simp [recurseFlat, flatEntries, teUp, setKey_fresh _ _ _ hf]⟩
  | fuel + 1, .undefined =>
      have hf := hfresh ([], .undefined) (by simp [flatEntries])
      simp only [List.append_nil] at hf
      exact ⟨ix0, len0, by
        simp [recurseFlat, flatEntries, teUp, setKey_fresh _ _ _ hf]⟩
  | fuel + 1, .arr es =>
      have hes : es = [] := by
        simpa [goodVal, List.isEmpty_iff] using hv
      subst hes
      have hf := hfresh ([], .arr []) (by simp [flatEntries])
      simp only [List.append_nil] at hf
      exact ⟨0, 0, by
        simp [recurseFlat, recurseFlatArr_stop, flatEntries, teUp,
          setKey_fresh _ _ _ hf]⟩
  | fuel + 1, .obj [] =>
      have hf := hfresh ([], .obj []) (by simp [flatEntries])
      simp only [List.append_nil] at hf
      have hne := dotJoin_ne_empty P hP hPg
      exact ⟨ix0, len0, by
        simp [recurseFlat, recurseFlatFields_nil, flatEntries, teUp,
          teFieldsUp, hne, setKey_fresh _ _ _ hf]⟩
  | fuel + 1, .obj (f :: rest) =>
      have h' : goodFields (f :: rest) = true := by simpa [goodVal] using hv
      have hfuel' : flatFuelFields (f :: rest) ≤ fuel := by
        simp only [flatFuel] at hfuel
        omega
      have hfresh' : ∀ e ∈ fieldsEntries (f :: rest),
          dotJoin (P ++ e.1) ∉ res.map Prod.fst := by
        intro e he
        exact hfresh e (by
          simp only [flatEntries, List.mem_append]
          exact Or.inl he)
      obtain ⟨ix', len', hfe⟩ := recurseFlatFields_entries fuel (f :: rest) P
        res true ix0 len0 hfuel' h' hPg hfresh'
      have hne := dotJoin_ne_empty P hP hPg
      refine ⟨ix', len', ?_⟩
      simp only [recurseFlat]
      rw [hfe]
      cases hte : teFieldsUp (f :: rest) true with
      | false =>
          simp [flatEntries, teUp, hte]
      | true =>
          have hnotres : dotJoin P ∉ res.map Prod.fst := by
            have := hfresh ([], .obj []) (by simp [flatEntries, hte])
            simpa using this
          have hnotch : dotJoin P ∉
              ((fieldsEntries (f :: rest)).map
                (fun e => (dotJoin (P ++ e.1), e.2))).map Prod.fst := by
            simp only [List.map_map, List.mem_map, Function.comp_def]
            rintro ⟨e, he, heq⟩
            obtain ⟨k', t', ht', _⟩ := fieldsEntries_shape (f :: rest) e he
            have hgood2 : ∀ s ∈ P ++ e.1, goodKey s = true := by
              intro s hs
              rcases List.mem_append.mp hs with h | h
              · exact hPg s h
              · exact fieldsEntries_good (f :: rest) h' e he s h
            have hinj := dotJoin_inj (P ++ e.1) P (by simp [ht']) hP
              (goodSegs_data _ hgood2) (goodSegs_data _ hPg) heq
            have h0 : P ++ e.1 = P ++ [] := by simpa using hinj
            have hx := List.append_cancel_left h0
            rw [ht'] at hx
            simp at hx
          have hfreshP : dotJoin P ∉
              (res ++ (fieldsEntries (f :: rest)).map
                (fun e => (dotJoin (P ++ e.1), e.2))).map Prod.fst := by
            simp only [List.map_append, List.mem_append]
            rintro (h | h)
            · exact hnotres h
            · exact hnotch h
          simp [hne, hte, teUp, flatEntries, setKey_fresh _ _ _ hfreshP,
            List.append_assoc]

/-- `recurseFlatFields` appends the fields' entries in order and leaves
the shared `isEmpty` as `teFieldsUp` describes. -/
theorem recurseFlatFields_entries (fuel : Nat) (fs : Fields)
    (P : List String) (res : Fields) (ie : Bool) (ix0 len0 : Nat)
    (hfuel : flatFuelFields fs ≤ fuel)
    (hf : goodFields fs = true)
    (hPg : ∀ s ∈ P, goodKey s = true)
    (hfresh : ∀ e ∈ fieldsEntries fs, dotJoin (P ++ e.1) ∉ res.map Prod.fst) :
    ∃ ix' len', recurseFlatFields fuel fs (dotJoin P) ⟨res, ie, ix0, len0⟩ =
      ⟨res ++ (fieldsEntries fs).map (fun e => (dotJoin (P ++ e.1), e.2)),
        teFieldsUp fs ie, ix', len'⟩ := by
  match fuel, fs with
  | fuel, [] =>
      exact ⟨ix0, len0, by
        simp [recurseFlatFields_nil, fieldsEntries, teFieldsUp]⟩
  | 0, (k, v) :: rest =>
      exact absurd hfuel (by simp only [flatFuelFields]; omega)
  | fuel + 1, (k, v) :: rest =>
      simp only [goodFields, Bool.and_eq_true] at hf
      obtain ⟨⟨⟨hk, hknotin⟩, hv⟩, hrest⟩ := hf
      have hknotmem : k ∉ rest.map Prod.fst :=
        (contains_false_iff _ _).mp (by simpa using hknotin)
      have hPkg : ∀ s ∈ P ++ [k], goodKey s = true := by
        intro s hs
        rcases List.mem_append.mp hs with h | h
        · exact hPg s h
        · simp only [List.mem_singleton] at h
          subst h
          exact hk
      have hfuelv : flatFuel v ≤ fuel := by
        simp only [flatFuelFields] at hfuel
        omega
      have hfuelr : flatFuelFields rest ≤ fuel := by
        simp only [flatFuelFields] at hfuel
        omega
      have hvfresh : ∀ e ∈ flatEntries v,
          dotJoin ((P ++ [k]) ++ e.1) ∉ res.map Prod.fst := by
        intro e he
        have hmem : (k :: e.1, e.2) ∈ fieldsEntries ((k, v) :: rest) := by
          simp only [fieldsEntries, List.mem_append, List.mem_map]
          exact Or.inl ⟨e, he, rfl⟩
        simpa [List.append_assoc] using hfresh _ hmem
      obtain ⟨ix1, len1, h1⟩ := recurseFlat_entries fuel v (P ++ [k])
        res false ix0 len0 hfuelv hv (by simp) hPkg hvfresh
      have hmapeq :
          (flatEntries v).map (fun e => (dotJoin ((P ++ [k]) ++ e.1), e.2)) =
            (flatEntries v).map (fun e => (dotJoin (P ++ k :: e.1), e.2)) := by
        apply List.map_congr_left
        intro e _
        simp [List.append_assoc]
      have hrestfresh : ∀ e ∈ fieldsEntries rest,
          dotJoin (P ++ e.1) ∉
            (res ++ (flatEntries v).map
              (fun e => (dotJoin (P ++ k :: e.1), e.2))).map Prod.fst := by
        intro e he
        simp only [List.map_append, List.mem_append, List.map_map]
        rintro (hmem | hmem)
        · exact hfresh e (by
            simp only [fieldsEntries, List.mem_append]
            exact Or.inr he) hmem
        · simp only [List.mem_map, Function.comp] at hmem
          obtain ⟨e', he', heq⟩ := hmem
          obtain ⟨k', t', ht', hk'⟩ := fieldsEntries_shape rest e he
          have hk'ne : k' ≠ k := by
            rintro rfl
            exact hknotmem hk'
          have hgood1 : ∀ s ∈ P ++ k :: e'.1, goodKey s = true := by
            intro s hs
            rcases List.mem_append.mp hs with h | h
            · exact hPg s h
            · rcases List.mem_cons.mp h with rfl | h
              · exact hk
              · exact flatEntries_good v hv e' he' s h
          have hgood2 : ∀ s ∈ P ++ e.1, goodKey s = true := by
            intro s hs
            rcases List.mem_append.mp hs with h | h
            · exact hPg s h
            · exact fieldsEntries_good rest hrest e he s h
          have := dotJoin_inj (P ++ e.1) (P ++ k :: e'.1) (by simp [ht'])
            (by simp) (goodSegs_data _ hgood2) (goodSegs_data _ hgood1)
            heq.symm
          rw [ht'] at this
          have := List.append_cancel_left this
          simp only [List.cons.injEq] at this
          exact hk'ne this.1
      obtain ⟨ix2, len2, h2⟩ := recurseFlatFields_entries fuel rest P
        (res ++ (flatEntries v).map
          (fun e => (dotJoin (P ++ k :: e.1), e.2)))
        (teUp v false) ix1 len1 hfuelr hrest hPg hrestfresh
      refine ⟨ix2, len2, ?_⟩
      simp only [recurseFlatFields]
      rw [flatPath_eq P k hPg, h1, hmapeq, h2]
      simp only [fieldsEntries, List.map_append, List.map_map,
        List.append_assoc, Function.comp_def, teFieldsUp]

end

/-! ### Unflatten-side lemmas -/

theorem unflatInsert_obj (sf : Fields) (segs : List String) (leaf : Val)
    (r : Val) (h : unflatInsert (.obj sf) segs leaf = .ok r) :
    ∃ sf', r = .obj sf' := by
  match segs with
  | [] =>
      simp only [unflatInsert] at h
      injection h with h
      exact ⟨sf, h.symm⟩
  | [e] =>
      simp only [unflatInsert] at h
      split at h
      · injection h with h
        exact ⟨sf, h.symm⟩
      · simp only [setPropE] at h
        injection h with h
        exact ⟨_, h.symm⟩
  | e :: e' :: rest =>
      by_cases hc : jsTruthy (getProp (.obj sf) e)
      · simp only [unflatInsert, hc, if_true] at h
        cases hs : unflatInsert (getProp (.obj sf) e) (e' :: rest) leaf with
        | error err =>
            cases err
            rw [hs] at h
            simp at h
        | ok sub =>
            rw [hs] at h
            simp only [ebind_ok, setPropE] at h
            injection h with h
            exact ⟨_, h.symm⟩
      · simp only [unflatInsert, hc, Bool.false_eq_true, if_false] at h
        cases hs : unflatInsert
            (if jsNumericString e' then Val.arr [] else Val.obj [])
            (e' :: rest) leaf with
        | error err =>
            cases err
            rw [hs] at h
            simp at h
        | ok sub =>
            rw [hs] at h
            simp only [ebind_ok, setPropE] at h
            injection h with h
            exact ⟨_, h.symm⟩

theorem setKey_lookupD_self (tf : Fields) (k : String)
    (h : k ∈ tf.map Prod.fst) : setKey tf k (lookupD tf k) = tf := by
  induction tf with
  | nil => simp at h
  | cons p rest ih =>
      obtain ⟨k', v'⟩ := p
      by_cases hk : k' = k
      · subst hk
        simp [setKey, lookupD]
      · have : k ∈ rest.map Prod.fst := by
          rcases (by simpa using h : k = k' ∨ ∃ x, (k, x) ∈ rest) with
            h' | ⟨x, hx⟩
          · exact absurd h'.symm hk
          · exact List.mem_map.mpr ⟨(k, x), hx, rfl⟩
        simp [setKey, lookupD, hk, ih this]

/-- Inserting `k`-prefixed entries into a tree whose `k` slot holds an
object descends into that object: the fold distributes over the
prefix.  An entry with an empty relative path (a spurious `{}` of
`flat`) is a no-op on both sides: the `k` slot is truthy, so the
one-segment insert keeps it, just as the zero-segment insert returns
the sub-object unchanged. -/
theorem foldInsert_lift (k : String) (entries : List (List String × Val)) :
    ∀ (tf sf : Fields), lookupD tf k = .obj sf →
      foldInsert (.obj tf) (entries.map (fun e => (k :: e.1, e.2))) =
        foldInsert (.obj sf) entries >>= fun r => .ok (.obj (setKey tf k r)) := by
  induction entries with
  | nil =>
      intro tf sf hlk
      have hmem : k ∈ tf.map Prod.fst := by
        by_contra hm
        rw [lookupD_not_mem tf k hm] at hlk
        exact absurd hlk (by simp)
      simp only [List.map_nil, foldInsert, List.foldlM_nil]
      rw [pure_bind, ← hlk, setKey_lookupD_self tf k hmem]
      rfl
  | cons ent rest ih =>
      intro tf sf hlk
      obtain ⟨segs, leaf⟩ := ent
      cases segs with
      | nil =>
          simp only [List.map_cons, foldInsert, List.foldlM_cons]
          simp only [unflatInsert, getProp, hlk, jsTruthy, if_true, ebind_ok]
          exact ih tf sf hlk
      | cons s1 srest =>
          simp only [List.map_cons, foldInsert, List.foldlM_cons]
          simp only [unflatInsert, getProp, hlk, jsTruthy, if_true]
          cases hs : unflatInsert (.obj sf) (s1 :: srest) leaf with
          | error err =>
              cases err
              simp
          | ok sub =>
              obtain ⟨sf₂, rfl⟩ := unflatInsert_obj sf _ _ _ hs
              simp only [ebind_ok, setPropE]
              have ihh := ih (setKey tf k (.obj sf₂)) sf₂
                (lookupD_setKey_same tf k _)
              simp only [foldInsert] at ihh
              rw [ihh]
              cases hrest : List.foldlM
                  (fun acc e => unflatInsert acc e.1 e.2)
                  (Val.obj sf₂) rest with
              | error err => cases err; simp
              | ok r => simp [setKey_setKey]

mutual

/-- Inserting the `k`-prefixed entries of a good value `v` into a tree
in which `k` is fresh appends exactly the binding `(k, v)`. -/
theorem foldInsert_value (v : Val) (k : String) (tf : Fields)
    (hv : goodVal v = true) (hk : goodKey k = true)
    (hfresh : k ∉ tf.map Prod.fst) :
    foldInsert (.obj tf) ((flatEntries v).map (fun e => (k :: e.1, e.2))) =
      .ok (.obj (tf ++ [(k, v)])) := by
  match v with
  | .str _ | .num _ | .bool _ | .null | .undefined =>
      simp only [flatEntries, List.map_cons, List.map_nil, foldInsert,
        List.foldlM_cons, List.foldlM_nil, unflatInsert, getProp,
        lookupD_not_mem tf k hfresh, jsTruthy, Bool.false_eq_true, if_false,
        setPropE, ebind_ok, setKey_fresh tf k _ hfresh]
      rfl
  | .arr es =>
      have hes : es = [] := by
        simpa [goodVal, List.isEmpty_iff] using hv
      subst hes
      simp only [flatEntries, List.map_cons, List.map_nil, foldInsert,
        List.foldlM_cons, List.foldlM_nil, unflatInsert, getProp,
        lookupD_not_mem tf k hfresh, jsTruthy, Bool.false_eq_true, if_false,
        setPropE, ebind_ok, setKey_fresh tf k _ hfresh]
      rfl
  | .obj [] =>
      simp only [flatEntries, List.map_cons, List.map_nil, foldInsert,
        List.foldlM_cons, List.foldlM_nil, unflatInsert, getProp,
        lookupD_not_mem tf k hfresh, jsTruthy, Bool.false_eq_true, if_false,
        setPropE, ebind_ok, setKey_fresh tf k _ hfresh]
      rfl
  | .obj (f :: rest) =>
      have hff : goodFields (f :: rest) = true := by simpa [goodVal] using hv
      have hA : foldInsert (.obj tf)
          ((fieldsEntries (f :: rest)).map (fun e => (k :: e.1, e.2))) =
            .ok (.obj (tf ++ [(k, .obj (f :: rest))])) := by
        have hB2 := foldInsert_fields (f :: rest) [] hff (by simp)
        obtain ⟨E1, Erest, hE⟩ := List.exists_cons_of_ne_nil
          (fieldsEntries_ne_nil (f :: rest) hff (by simp))
        obtain ⟨segs1, leaf1⟩ := E1
        obtain ⟨k1, t1, hE1, hk1mem⟩ :=
          fieldsEntries_shape (f :: rest) (segs1, leaf1)
            (hE ▸ List.mem_cons_self _ _)
        simp only at hE1
        subst hE1
        have hk1good : goodKey k1 = true :=
          fieldsEntries_good (f :: rest) hff (k1 :: t1, leaf1)
            (hE ▸ List.mem_cons_self _ _) k1 (List.mem_cons_self _ _)
        rw [hE]
        rw [hE] at hB2
        simp only [foldInsert, List.foldlM_cons, List.map_cons] at hB2 ⊢
        simp only [unflatInsert, getProp, lookupD_not_mem tf k hfresh,
          jsTruthy, Bool.false_eq_true, if_false,
          goodKey_not_numeric k1 hk1good]
        cases hs : unflatInsert (.obj []) (k1 :: t1) leaf1 with
        | error err =>
            cases err
            rw [hs] at hB2
            simp at hB2
        | ok sub =>
            obtain ⟨sf₂, rfl⟩ := unflatInsert_obj [] _ _ _ hs
            rw [hs] at hB2
            simp only [ebind_ok] at hB2
            simp only [ebind_ok, setPropE, setKey_fresh tf k _ hfresh]
            have hlk : lookupD (tf ++ [(k, Val.obj sf₂)]) k = .obj sf₂ := by
              rw [← setKey_fresh tf k _ hfresh, lookupD_setKey_same]
            have hlift := foldInsert_lift k Erest
              (tf ++ [(k, Val.obj sf₂)]) sf₂ hlk
            simp only [foldInsert] at hlift
            rw [hlift, hB2]
            simp only [List.nil_append, ebind_ok]
            rw [← setKey_fresh tf k _ hfresh, setKey_setKey,
              setKey_fresh tf k _ hfresh]
      rw [show flatEntries (.obj (f :: rest)) = fieldsEntries (f :: rest) ++
        (if teFieldsUp (f :: rest) true then [([], .obj [])] else [])
        from rfl]
      rw [List.map_append]
      simp only [foldInsert, List.foldlM_append]
      simp only [foldInsert] at hA
      rw [hA]
      simp only [ebind_ok]
      have hlk2 : lookupD (tf ++ [(k, Val.obj (f :: rest))]) k =
          .obj (f :: rest) := by
        rw [← setKey_fresh tf k _ hfresh, lookupD_setKey_same]
      cases hte : teFieldsUp (f :: rest) true with
      | false => simp; rfl
      | true =>
          simp only [if_true, List.map_cons, List.map_nil, List.foldlM_cons,
            List.foldlM_nil]
          simp [unflatInsert, getProp, hlk2, jsTruthy]
termination_by (sizeOf v, 0)

/-- Inserting the entries of good fields into a tree whose keys are all
fresh appends exactly those fields, in order. -/
theorem foldInsert_fields (fs : Fields) (tf : Fields)
    (hf : goodFields fs = true)
    (hfresh : ∀ k' ∈ fs.map Prod.fst, k' ∉ tf.map Prod.fst) :
    foldInsert (.obj tf) (fieldsEntries fs) = .ok (.obj (tf ++ fs)) := by
  match fs with
  | [] => simp [fieldsEntries, foldInsert]; rfl
  | (k, v) :: rest =>
      simp only [goodFields, Bool.and_eq_true] at hf
      obtain ⟨⟨⟨hk, hknotin⟩, hv⟩, hrest⟩ := hf
      have hknotmem : k ∉ rest.map Prod.fst :=
        (contains_false_iff _ _).mp (by simpa using hknotin)
      simp only [fieldsEntries, foldInsert, List.foldlM_append]
      have h1 := foldInsert_value v k tf hv hk (hfresh k (by simp))
      simp only [foldInsert] at h1
      rw [h1]
      simp only [ebind_ok]
      have h2 := foldInsert_fields rest (tf ++ [(k, v)]) hrest (by
        intro k' hk'
        simp only [List.map_append, List.mem_append, List.map_cons,
          List.map_nil, List.mem_singleton]
        rintro (hmem | hmem)
        · exact hfresh k' (by simp [hk']) hmem
        · subst hmem
          exact hknotmem hk')
      simp only [foldInsert] at h2
      rw [h2]
      simp [List.append_assoc]
termination_by (sizeOf fs, 1)

end

theorem foldl_insert_split (entries : List (List String × Val))
    (hgood : ∀ e ∈ entries, e.1 ≠ [] ∧ ∀ s ∈ e.1, goodKey s = true) :
    ∀ t, (entries.map (fun e => (dotJoin e.1, e.2))).foldlM
        (fun acc p => unflatInsert acc (splitDot p.1) p.2) t =
      foldInsert t entries := by
  induction entries with
  | nil => intro t; rfl
  | cons e rest ih =>
      intro t
      obtain ⟨hne, hg⟩ := hgood e (by simp)
      simp only [List.map_cons, List.foldlM_cons, foldInsert]
      rw [splitDot_dotJoin e.1 hne (goodSegs_data _ hg)]
      cases hs : unflatInsert t e.1 e.2 with
      | error err => cases err; simp
      | ok t' =>
          simp only [ebind_ok]
          have := ih (fun x hx => hgood x (by simp [hx])) t'
          simpa [foldInsert] using this

/-- C2 amended: the round-trip `unflatten (flat r) = r` holds for every
record whose field keys (at all nesting levels) are pairwise-distinct
good keys (no `"."`, not JS-numeric) and which contains no non-empty
list — in particular records with nested records, empty lists and empty
nested records. -/
theorem c2_roundtrip_amended (fields : Fields)
    (h : goodFields fields = true) :
    unflatten (flat (.obj fields)) = .ok (.obj fields) := by
  match fields with
  | [] => rfl
  | f :: rest =>
      have hflat : flat (.obj (f :: rest)) =
          (fieldsEntries (f :: rest)).map (fun e => (dotJoin e.1, e.2)) := by
        obtain ⟨ix', len', hfe⟩ := recurseFlatFields_entries
          (flatFuelFields (f :: rest)) (f :: rest) [] [] true 0 0
          (le_refl _) h (by simp) (by simp)
        simp only [dotJoin, List.nil_append] at hfe
        simp only [flat, flatFuel, recurseFlat]
        rw [hfe]
        simp
      rw [hflat]
      have hsplit := foldl_insert_split (fieldsEntries (f :: rest)) (by
        intro e he
        obtain ⟨k', t', ht', _⟩ := fieldsEntries_shape _ e he
        exact ⟨by simp [ht'], fun s hs => fieldsEntries_good _ h e he s hs⟩)
        (.obj [])
      rw [show unflatten ((fieldsEntries (f :: rest)).map
            (fun e => (dotJoin e.1, e.2))) =
          ((fieldsEntries (f :: rest)).map
            (fun e => (dotJoin e.1, e.2))).foldlM
            (fun acc p => unflatInsert acc (splitDot p.1) p.2) (.obj [])
        from rfl]
      rw [hsplit]
      have := foldInsert_fields (f :: rest) [] h (by simp)
      simpa using this

theorem c2_roundtrip_amended_witness :
    goodFields [("a", .obj [("b", .num 1), ("c", .obj [])]),
      ("d", .arr []), ("e", .str "")] = true ∧
    unflatten (flat (.obj [("a", .obj [("b", .num 1), ("c", .obj [])]),
        ("d", .arr []), ("e", .str "")])) =
      .ok (.obj [("a", .obj [("b", .num 1), ("c", .obj [])]),
        ("d", .arr []), ("e", .str "")]) :=
  ⟨by decide, c2_roundtrip_amended _ (by decide)⟩

end MangoDB
